import Mathlib

/-
Verification of the daxe core components against the repository source
(src/include/daxe/safe.h and src/include/daxe/graph.h).

Modelling conventions:
  * The C++ type i64 is modelled by Lean Int.  None of the verified
    properties involve machine-level wraparound: Fenwick loop indices stay
    in the interval from 1 to n, DSU indices stay in the interval from 0
    to n-1, and the value-level claims are about the ideal integer
    semantics of the i64 payloads.
  * std::optional with the daxe Option wrapper is modelled by Lean Option
    (the tagged union of an empty state and a present state).
  * The noreturn helper panic(msg), which prints the diagnostic msg and
    calls std::terminate, is modelled by the Outcome.fatal constructor:
    a call that can panic returns an Outcome that is either a normal
    value or a fatal outcome carrying the diagnostic message.
  * Member functions that mutate the receiver are modelled as functions
    from the state to a pair of the returned value and the new state.
  * Loops and recursions whose termination rests on a data-structure
    invariant (the Fenwick index walks, the DSU parent chains) are
    translated with an explicit fuel parameter that is structurally
    consumed; the entry points pass enough fuel, and the fuel-sufficiency
    is proved from the invariants below.  This keeps every definition
    executable by kernel reduction.
  * The callable arguments of map / then / otherwise are pure Lean
    functions; each combinator additionally returns the number of times
    it invokes its function argument, read off from the branch structure
    of the source, so that the laziness contracts can be stated.
-/

set_option maxHeartbeats 1000000

namespace Daxe

/-- Outcome of a call that either returns a value normally or terminates
the process via the daxe panic helper (safe.h line 27), which prints the
diagnostic message and calls std::terminate without returning.  The fatal
constructor records the message handed to the panic helper. -/
inductive Outcome (T : Type) where
  | ok (v : T) : Outcome T
  | fatal (msg : String) : Outcome T
deriving DecidableEq

/-- Option map (safe.h lines 94-99): when a value is present the function
is invoked once on it and the image is rewrapped; when empty, the empty
Option of the target type is returned and the function is not invoked.
The second component counts the invocations of f on the taken branch. -/
def optMap {T U : Type} (o : Option T) (f : T → U) : Option U × Nat :=
  match o with
  | Option.some v => (Option.some (f v), 1)
  | Option.none => (Option.none, 0)

/-- Option then, the monadic bind (safe.h lines 101-107): when a value is
present, f is invoked once on it and its result is returned directly
without rewrapping; when empty, the empty Option of the target type is
returned and f is not invoked.  The second component counts the
invocations of f. -/
def optThen {T U : Type} (o : Option T) (f : T → Option U) : Option U × Nat :=
  match o with
  | Option.some v => (f v, 1)
  | Option.none => (Option.none, 0)

/-- Option otherwise, the lazy default (safe.h lines 109-114): when a
value is present it is returned and the zero-argument fallback is not
invoked; when empty the fallback is invoked once and its result is
returned.  The second component counts the invocations of f. -/
def optOtherwise {T : Type} (o : Option T) (f : Unit → T) : T × Nat :=
  match o with
  | Option.some v => (v, 0)
  | Option.none => (f (), 1)

/-- Option unwrap (safe.h lines 83-86): returns the contained value when
present and panics with the recorded diagnostic when empty. -/
def optUnwrap {T : Type} (o : Option T) : Outcome T :=
  match o with
  | Option.some v => Outcome.ok v
  | Option.none => Outcome.fatal ("called unwrap() on None Option")

/-- Result type (safe.h lines 131-190): tagged union of a success payload
and an error payload, mirroring the std::variant representation. -/
inductive DResult (T : Type) (E : Type) where
  | Ok (v : T) : DResult T E
  | Err (e : E) : DResult T E
deriving DecidableEq

/-- Result unwrap (safe.h lines 147-150): returns the success payload and
panics with the recorded diagnostic on the error side. -/
def resUnwrap {T E : Type} (r : DResult T E) : Outcome T :=
  match r with
  | DResult.Ok v => Outcome.ok v
  | DResult.Err _ => Outcome.fatal ("called unwrap() on Err Result")

/-- Result error accessor (safe.h lines 157-160): returns the error
payload and panics with the recorded diagnostic on the success side. -/
def resError {T E : Type} (r : DResult T E) : Outcome E :=
  match r with
  | DResult.Ok _ => Outcome.fatal ("called error() on Ok Result")
  | DResult.Err e => Outcome.ok e

/-- Result map (safe.h lines 162-168): transforms the success payload by
one invocation of f and passes an error through unchanged without
invoking f.  The second component counts the invocations of f. -/
def resMap {T U E : Type} (r : DResult T E) (f : T → U) : DResult U E × Nat :=
  match r with
  | DResult.Ok v => (DResult.Ok (f v), 1)
  | DResult.Err e => (DResult.Err e, 0)

/-- Result then, the monadic bind (safe.h lines 170-177): invokes f once
on the success payload and returns its Result directly; passes an error
through unchanged without invoking f.  The second component counts the
invocations of f. -/
def resThen {T U E : Type} (r : DResult T E) (f : T → DResult U E) : DResult U E × Nat :=
  match r with
  | DResult.Ok v => (f v, 1)
  | DResult.Err e => (DResult.Err e, 0)

/-- Result otherwise, the lazy recovery (safe.h lines 179-184): returns
the success payload unchanged without invoking f, and recovers from an
error by one invocation of f on the error payload.  The second component
counts the invocations of f. -/
def resOtherwise {T E : Type} (r : DResult T E) (f : E → T) : T × Nat :=
  match r with
  | DResult.Ok v => (v, 0)
  | DResult.Err e => (f e, 1)

/-- Least set bit, the value of the two's complement expression i & (-i)
on a nonnegative i64 operand (graph.h lines 104 and 112).  Computed by
structural recursion on a fuel bounding the number of halvings; the
bridge theorem land_two_pow_sub below proves this equal to the literal
64-bit two's complement bit expression for every operand of the machine
word, which justifies the translation. -/
def lowbitAux : Nat → Nat → Nat
  | 0, _ => 0
  | fuel + 1, i =>
    if i = 0 then 0 else if i % 2 = 1 then 1 else 2 * lowbitAux fuel (i / 2)

def lowbit (i : Nat) : Nat := lowbitAux i i

/-- State of the Fenwick tree (graph.h lines 96-120): the backing array
of n + 1 cells and the logical size n. -/
structure FenwickTree where
  tree : List Int
  n : Nat
deriving DecidableEq

/-- Constructor FenwickTree(size) (graph.h line 100): size + 1 cells all
zero.  The i64 size argument is modelled as a Nat because a negative
size makes the std::vector construction ill-defined. -/
def mkFenwick (size : Nat) : FenwickTree :=
  ⟨List.replicate (size + 1) 0, size⟩

/-- Loop of update (graph.h line 104): starting at index j, add delta to
tree[j] and advance j by lowbit j while j ≤ n.  On entry j ≥ 1, and j
strictly increases, so at most n iterations happen; the structural fuel
(n + 1 at the entry point) covers them.  The conjunct 1 ≤ j in the guard
is redundant at run time: the entry index is i + 1 ≥ 1 and grows, and at
j = 0 the source loop would not terminate at all. -/
def updateLoop : Nat → Nat → Int → List Int → Nat → List Int
  | 0, _, _, tree, _ => tree
  | fuel + 1, n, delta, tree, j =>
    if 1 ≤ j ∧ j ≤ n then
      updateLoop fuel n delta (tree.set j (tree.getD j 0 + delta)) (j + lowbit j)
    else tree

/-- update(i, delta) (graph.h lines 102-105): out-of-range indices are a
silent no-op; otherwise the propagation loop starts at i + 1. -/
def update (t : FenwickTree) (i delta : Int) : FenwickTree :=
  if i < 0 ∨ (t.n : Int) ≤ i then t
  else ⟨updateLoop (t.n + 1) t.n delta t.tree (i.toNat + 1), t.n⟩

/-- Loop of query (graph.h line 111): starting at index j, accumulate
tree[j] and retreat j by lowbit j while j > 0.  The index strictly
decreases, so fuel n at the entry point covers all iterations. -/
def queryLoop : Nat → List Int → Nat → Int
  | 0, _, _ => 0
  | fuel + 1, tree, j =>
    if 0 < j then tree.getD j 0 + queryLoop fuel tree (j - lowbit j) else 0

/-- query(i) (graph.h lines 107-113): negative i yields 0, i ≥ n is
clamped to n - 1, then the prefix accumulation loop starts at i + 1. -/
def query (t : FenwickTree) (i : Int) : Int :=
  if i < 0 then 0
  else queryLoop t.n t.tree
    (((if (t.n : Int) ≤ i then (t.n : Int) - 1 else i) + 1).toNat)

/-- rangequery(l, r) (graph.h lines 115-118): 0 when l > r, r < 0 or
l ≥ n, otherwise query(r) minus query(l - 1) guarded for l ≤ 0. -/
def rangequery (t : FenwickTree) (l r : Int) : Int :=
  if l > r ∨ r < 0 ∨ (t.n : Int) ≤ l then 0
  else query t r - (if 0 < l then query t (l - 1) else 0)

/-- A sequence of update calls applied in order. -/
def applyUpdates (t : FenwickTree) (us : List (Int × Int)) : FenwickTree :=
  us.foldl (fun acc u => update acc u.1 u.2) t

/-- Reference model: the logical array described by a sequence of update
calls, as the pointwise sum of the deltas aimed at each position. -/
def arrOf : List (Int × Int) → Nat → Int
  | [], _ => 0
  | u :: rest, k => (if u.1 = (k : Int) then u.2 else 0) + arrOf rest k

/-- Reference model: sum of the first m entries of the logical array. -/
def prefixAcc (a : Nat → Int) : Nat → Int
  | 0 => 0
  | m + 1 => prefixAcc a m + a m

/-- Reference model: brute-force sum of all deltas whose target position
lies in the closed interval from l to r. -/
def bruteSum (us : List (Int × Int)) (l r : Int) : Int :=
  ((us.filter (fun u => decide (l ≤ u.1) && decide (u.1 ≤ r))).map Prod.snd).sum

/-- Indices of the backing array read or written by one run of the
update loop, mirroring updateLoop. -/
def updateAccs : Nat → Nat → Nat → List Nat
  | 0, _, _ => []
  | fuel + 1, n, j =>
    if 1 ≤ j ∧ j ≤ n then j :: updateAccs fuel n (j + lowbit j) else []

/-- Indices of the backing array accessed by update(i, delta). -/
def updateAccesses (n : Nat) (i : Int) : List Nat :=
  if i < 0 ∨ (n : Int) ≤ i then [] else updateAccs (n + 1) n (i.toNat + 1)

/-- Indices of the backing array read by one run of the query loop. -/
def queryAccs : Nat → Nat → List Nat
  | 0, _ => []
  | fuel + 1, j => if 0 < j then j :: queryAccs fuel (j - lowbit j) else []

/-- Indices of the backing array accessed by query(i). -/
def queryAccesses (n : Nat) (i : Int) : List Nat :=
  if i < 0 then []
  else queryAccs n (((if (n : Int) ≤ i then (n : Int) - 1 else i) + 1).toNat)

/-- Indices of the backing array accessed by rangequery(l, r). -/
def rangequeryAccesses (n : Nat) (l r : Int) : List Nat :=
  if l > r ∨ r < 0 ∨ (n : Int) ≤ l then []
  else queryAccesses n r ++ (if 0 < l then queryAccesses n (l - 1) else [])

/-- The set of cells visited by the update loop of a size-n tree entered
at index p: exactly the indices produced while the guard 1 ≤ j ∧ j ≤ n
holds along the walk j, j + lowbit j, and so on. -/
inductive Chain (n : Nat) : Nat → Nat → Prop where
  | base (p : Nat) : 1 ≤ p → p ≤ n → Chain n p p
  | step (p j : Nat) : 1 ≤ p → p ≤ n → Chain n (p + lowbit p) j → Chain n p j

/-- The Fenwick representation invariant: the backing array has n + 1
cells and cell j aggregates the logical entries with 0-based positions
from j - lowbit j up to j - 1. -/
def FInv (t : FenwickTree) (a : Nat → Int) : Prop :=
  t.tree.length = t.n + 1 ∧
  ∀ j, 1 ≤ j → j ≤ t.n →
    t.tree.getD j 0 = prefixAcc a j - prefixAcc a (j - lowbit j)

/-- State of the union-find structure (graph.h lines 124-158): the parent
array and the rank array, both of i64 entries. -/
structure DSU where
  parent : List Int
  rank : List Int
deriving DecidableEq

/-- Constructor DSU(n) (graph.h lines 127-129): parent is the identity
(std::iota) and every rank is zero.  The i64 size argument is modelled
as a Nat because a negative size makes the std::vector construction
ill-defined. -/
def mkDSU (n : Nat) : DSU :=
  ⟨List.map (fun k : Nat => (k : Int)) (List.range n), List.replicate n 0⟩

/-- Parent entry of node k, the read parent[k]. -/
def pv (s : DSU) (k : Nat) : Int := s.parent.getD k 0

/-- Rank entry of node k, the read rank_[k]. -/
def rnk (s : DSU) (k : Nat) : Int := s.rank.getD k 0

/-- The parent of k as an array index. -/
def stp (s : DSU) (k : Nat) : Nat := (pv s k).toNat

/-- A node is a root when it is its own parent. -/
def isRoot (s : DSU) (k : Nat) : Prop := pv s k = (k : Int)

instance (s : DSU) (k : Nat) : Decidable (isRoot s k) :=
  inferInstanceAs (Decidable (pv s k = (k : Int)))

/-- m-fold iteration of the parent step from node k. -/
def iterStep (s : DSU) : Nat → Nat → Nat
  | 0, k => k
  | m + 1, k => iterStep s m (stp s k)

/-- Pure walk to the root of k, with explicit structural fuel; the entry
point passes the array length, which suffices under the invariant. -/
def rootAux : Nat → DSU → Nat → Nat
  | 0, _, k => k
  | fuel + 1, s, k => if isRoot s k then k else rootAux fuel s (stp s k)

/-- The representative of the set of k: the end of the parent chain. -/
def rootOf (s : DSU) (k : Nat) : Nat := rootAux s.parent.length s k

/-- Node k lies on the path that a find starting at x visits: it is an
iterate of the parent step from x reached before any root. -/
def pathMem (s : DSU) (x k : Nat) : Prop :=
  ∃ m, iterStep s m x = k ∧ ∀ j, j < m → ¬ isRoot s (iterStep s j x)

/-- find(x) (graph.h lines 132-136): -1 for an index outside the array,
otherwise the recursion find(parent[x]) followed by the path-compressing
write parent[x] = root and a re-read of parent[x].  The recursion depth
is bounded by the array length under the forest invariant, which the
structural fuel makes explicit; the fuel-exhaustion branch is
unreachable from the public entry point on states satisfying the
invariant. -/
def findAux : Nat → DSU → Int → Int × DSU
  | 0, s, _ => (-1, s)
  | fuel + 1, s, x =>
    if x < 0 ∨ (s.parent.length : Int) ≤ x then (-1, s)
    else
      let px := s.parent.getD x.toNat 0
      if px = x then (px, s)
      else
        let res := findAux fuel s px
        let s2 : DSU := ⟨res.2.parent.set x.toNat res.1, res.2.rank⟩
        (s2.parent.getD x.toNat 0, s2)

def find (s : DSU) (x : Int) : Int × DSU := findAux s.parent.length s x

/-- Union-by-rank link step of unite (graph.h lines 142-145): the
conditional swap that picks the higher-rank root as the new parent, the
link parent[py] = px, and the rank increment of the surviving root on a
rank tie (the rank comparison of the tie test happens after the link,
as in the source; the link does not modify the rank array). -/
def linkByRank (s2 : DSU) (px py : Int) : DSU :=
  let pq := if s2.rank.getD px.toNat 0 < s2.rank.getD py.toNat 0
    then (py, px) else (px, py)
  let s3 : DSU := ⟨s2.parent.set pq.2.toNat pq.1, s2.rank⟩
  if s3.rank.getD pq.1.toNat 0 = s3.rank.getD pq.2.toNat 0 then
    ⟨s3.parent, s3.rank.set pq.1.toNat (s3.rank.getD pq.1.toNat 0 + 1)⟩
  else s3

/-- unite(x, y) (graph.h lines 138-146): root lookups with compression,
false when either index is invalid or the roots coincide, otherwise
the union-by-rank link on the two roots. -/
def unite (s : DSU) (x y : Int) : Bool × DSU :=
  let r1 := find s x
  let r2 := find r1.2 y
  if r1.1 < 0 ∨ r2.1 < 0 ∨ r1.1 = r2.1 then (false, r2.2)
  else (true, linkByRank r2.2 r1.1 r2.1)

/-- connected(x, y) (graph.h lines 148-151): both lookups succeed and
agree. -/
def connected (s : DSU) (x y : Int) : Bool × DSU :=
  let r1 := find s x
  let r2 := find r1.2 y
  (decide (0 ≤ r1.1) && decide (0 ≤ r2.1) && decide (r1.1 = r2.1), r2.2)

/-- Loop of components() (graph.h lines 153-157): for every index i in
order, run find(i) and count the nodes that are their own root. -/
def componentsAux : List Nat → Int → DSU → Int × DSU
  | [], acc, s => (acc, s)
  | i :: rest, acc, s =>
    let res := find s (i : Int)
    componentsAux rest (acc + if res.1 = (i : Int) then 1 else 0) res.2

def components (s : DSU) : Int × DSU :=
  componentsAux (List.range s.parent.length) 0 s

/-- Every parent entry is a valid index of the parent array. -/
def ValidP (s : DSU) : Prop :=
  ∀ k, k < s.parent.length → 0 ≤ pv s k ∧ pv s k < (s.parent.length : Int)

/-- The rank array has the same length as the parent array and rank
strictly increases from a non-root node to its parent.  This is the
standard union-by-rank invariant; it forces the parent chains to be
acyclic. -/
def RankOK (s : DSU) : Prop :=
  s.rank.length = s.parent.length ∧
  ∀ k, k < s.parent.length → ¬ isRoot s k → rnk s k < rnk s (stp s k)

/-- The DSU invariant maintained by every operation. -/
def Inv (s : DSU) : Prop := ValidP s ∧ RankOK s

/-- The parent array is a forest: from every node the parent chain
reaches a root in fewer steps than the array length. -/
def Grounded (s : DSU) : Prop :=
  ∀ k, k < s.parent.length →
    ∃ m, m < s.parent.length ∧ isRoot s (iterStep s m k)

/-- Number of nodes that are their own parent. -/
def countRoots (s : DSU) : Nat :=
  (List.range s.parent.length).countP (fun k => decide (isRoot s k))

/-- Reference model of the union-by-rank policy: the root that survives a
successful unite(x, y), the higher-rank root with ties won by the root
of x. -/
def uniteWinner (s : DSU) (x y : Int) : Nat :=
  if rnk s (rootOf s x.toNat) < rnk s (rootOf s y.toNat)
  then rootOf s y.toNat else rootOf s x.toNat

/-- Reference model of the union-by-rank policy: the root that is
attached below the winner by a successful unite(x, y). -/
def uniteLoser (s : DSU) (x y : Int) : Nat :=
  if rnk s (rootOf s x.toNat) < rnk s (rootOf s y.toNat)
  then rootOf s x.toNat else rootOf s y.toNat

/-- The state after a query operation: the invariant holds, lengths and
ranks are untouched, and both the root set and the representative of
every node are unchanged. -/
def Pres (s s' : DSU) : Prop :=
  Inv s' ∧ s'.parent.length = s.parent.length ∧ s'.rank = s.rank ∧
  ∀ k, k < s.parent.length →
    ((isRoot s' k ↔ isRoot s k) ∧ rootOf s' k = rootOf s k)

instance (s : DSU) : Decidable (ValidP s) :=
  inferInstanceAs (Decidable (∀ k, k < s.parent.length →
    0 ≤ pv s k ∧ pv s k < (s.parent.length : Int)))

instance (s : DSU) : Decidable (RankOK s) :=
  inferInstanceAs (Decidable (s.rank.length = s.parent.length ∧
    ∀ k, k < s.parent.length → ¬ isRoot s k → rnk s k < rnk s (stp s k)))

instance (s : DSU) : Decidable (Inv s) :=
  inferInstanceAs (Decidable (ValidP s ∧ RankOK s))

/-- The sequence of updates of the worked spec example. -/
def exUpdates : List (Int × Int) := [(3, 5), (5, 10), (7, 3)]

/-- The Fenwick tree of the worked spec example. -/
def exFenwick : FenwickTree := applyUpdates (mkFenwick 10) exUpdates

/-- A concrete DSU reached from DSU(4) by unite(0,1); unite(2,3): two
two-element sets with roots 0 and 2. -/
def exDSU2 : DSU := (unite (unite (mkDSU 4) 0 1).2 2 3).2

/-- A concrete DSU reached from DSU(4) by unite(0,1); unite(2,3);
unite(1,3).  Its parent array is [0, 0, 0, 2]: node 3 still hangs two
levels below the root 0, so a further find(3) compresses the path. -/
def exDSU : DSU := (unite exDSU2 1 3).2

end Daxe

namespace Daxe

/-- Claim C3: on an empty Option, map and then return an empty Option and
never invoke their function argument; on an empty Option, otherwise
invokes its zero-argument fallback exactly once and returns its result;
on a present Option holding v, then returns f v directly with no double
wrapping. -/
theorem claim_C3_option_combinators {T U : Type} (f : T → U) (g : T → Option U)
    (h : Unit → T) (v : T) :
    optMap (Option.none : Option T) f = (Option.none, 0) ∧
    optThen (Option.none : Option T) g = (Option.none, 0) ∧
    optOtherwise (Option.none : Option T) h = (h (), 1) ∧
    optThen (Option.some v) g = (g v, 1) := by
  exact ⟨rfl, rfl, rfl, rfl⟩

/-- Claim C4, counterexample to the stated diagnostic: unwrap on an empty
Option does fail fatally, but the diagnostic it records is the message
called unwrap() on None Option, which is not the string unwrap on empty
stated in the claim. -/
theorem claim_C4_counterexample :
    optUnwrap (Option.none : Option Nat) =
      Outcome.fatal ("called unwrap() on None Option") ∧
    ("called unwrap() on None Option") ≠ ("unwrap on empty") := by
  exact ⟨rfl, by decide⟩

/-- Claim C4 as amended: Option unwrap returns the contained value when
present and on an empty Option terminates fatally with the diagnostic
called unwrap() on None Option; Result unwrap on Err terminates fatally
with the diagnostic called unwrap() on Err Result, Result error on Ok
terminates fatally with the diagnostic called error() on Ok Result, and
on the non-error side both return the contained payload. -/
theorem claim_C4_unwrap_fatal {T E : Type} (v : T) (e : E) :
    optUnwrap (Option.some v) = Outcome.ok v ∧
    optUnwrap (Option.none : Option T) =
      Outcome.fatal ("called unwrap() on None Option") ∧
    resUnwrap (DResult.Ok v : DResult T E) = Outcome.ok v ∧
    resUnwrap (DResult.Err e : DResult T E) =
      Outcome.fatal ("called unwrap() on Err Result") ∧
    resError (DResult.Err e : DResult T E) = Outcome.ok e ∧
    resError (DResult.Ok v : DResult T E) =
      Outcome.fatal ("called error() on Ok Result") := by
  exact ⟨rfl, rfl, rfl, rfl, rfl, rfl⟩

/-- Claim C7: Result map sends Ok v to Ok of f v and passes Err e through
unchanged without invoking f; Result then passes Err e through unchanged
without invoking f; Result otherwise recovers from Err e by returning
f e and returns the payload of Ok v unchanged without invoking f. -/
theorem claim_C7_result_combinators {T U E : Type} (f : T → U)
    (g : T → DResult U E) (h : E → T) (v : T) (e : E) :
    resMap (DResult.Ok v : DResult T E) f = (DResult.Ok (f v), 1) ∧
    resMap (DResult.Err e : DResult T E) f = (DResult.Err e, 0) ∧
    resThen (DResult.Err e : DResult T E) g = (DResult.Err e, 0) ∧
    resOtherwise (DResult.Err e : DResult T E) h = (h e, 1) ∧
    resOtherwise (DResult.Ok v : DResult T E) h = (v, 0) := by
  exact ⟨rfl, rfl, rfl, rfl, rfl⟩

end Daxe


namespace Daxe

theorem lowbitAux_congr (f : Nat) : ∀ g i, i ≤ f → i ≤ g →
    lowbitAux f i = lowbitAux g i := by
  induction f with
  | zero =>
    intro g i hf _
    have h0 : i = 0 := by omega
    subst h0
    cases g with
    | zero => rfl
    | succ g => simp [lowbitAux]
  | succ f IH =>
    intro g i hf hg
    cases g with
    | zero =>
      have h0 : i = 0 := by omega
      subst h0
      simp [lowbitAux]
    | succ g =>
      by_cases h0 : i = 0
      · subst h0; simp [lowbitAux]
      · by_cases h1 : i % 2 = 1
        · simp [lowbitAux, h0, h1]
        · simp only [lowbitAux, h0, h1, if_false]
          rw [IH g (i / 2) (by omega) (by omega)]

theorem lowbit_odd (i : Nat) (h : i % 2 = 1) : lowbit i = 1 := by
  cases i with
  | zero => omega
  | succ j =>
    unfold lowbit
    simp [lowbitAux, h]

theorem lowbit_two_mul (i : Nat) : lowbit (2 * i) = 2 * lowbit i := by
  rcases Nat.eq_zero_or_pos i with h | h
  · subst h; rfl
  · obtain ⟨j, hj⟩ : ∃ j, 2 * i = j + 1 := ⟨2 * i - 1, by omega⟩
    unfold lowbit
    rw [hj]
    simp only [lowbitAux]
    have c1 : ¬(j + 1 = 0) := by omega
    have c2 : ¬((j + 1) % 2 = 1) := by omega
    rw [if_neg c1, if_neg c2]
    have c3 : (j + 1) / 2 = i := by omega
    rw [c3, lowbitAux_congr j i i (by omega) (le_refl i)]

theorem lowbit_pos (i : Nat) (h : 0 < i) : 0 < lowbit i := by
  induction i using Nat.strong_induction_on with
  | _ i IH =>
    by_cases h1 : i % 2 = 1
    · rw [lowbit_odd i h1]; omega
    · have h2 : i = 2 * (i / 2) := by omega
      rw [h2, lowbit_two_mul]
      have := IH (i / 2) (by omega) (by omega)
      omega

theorem lowbit_le (i : Nat) : lowbit i ≤ i := by
  induction i using Nat.strong_induction_on with
  | _ i IH =>
    by_cases h0 : i = 0
    · subst h0; exact Nat.le_refl 0
    · by_cases h1 : i % 2 = 1
      · rw [lowbit_odd i h1]; omega
      · have h2 : i = 2 * (i / 2) := by omega
        rw [h2, lowbit_two_mul]
        have := IH (i / 2) (by omega)
        omega

theorem lowbit_add (p : Nat) (hp : 0 < p) :
    2 * lowbit p ≤ lowbit (p + lowbit p) := by
  induction p using Nat.strong_induction_on with
  | _ p IH =>
    by_cases h1 : p % 2 = 1
    · rw [lowbit_odd p h1]
      have h2 : p + 1 = 2 * ((p + 1) / 2) := by omega
      rw [h2, lowbit_two_mul]
      have := lowbit_pos ((p + 1) / 2) (by omega)
      omega
    · obtain ⟨a, ha⟩ : ∃ a, p = 2 * a := ⟨p / 2, by omega⟩
      subst ha
      rw [lowbit_two_mul]
      have h2 : 2 * a + 2 * lowbit a = 2 * (a + lowbit a) := by ring
      rw [h2, lowbit_two_mul]
      have := IH a (by omega) (by omega)
      omega

theorem lowbit_between (p : Nat) : ∀ j, p < j → j - lowbit j < p →
    p + lowbit p ≤ j := by
  induction p using Nat.strong_induction_on with
  | _ p IH =>
    intro j h1 h2
    by_cases hp0 : p = 0
    · subst hp0; omega
    · by_cases hp1 : p % 2 = 1
      · rw [lowbit_odd p hp1]; omega
      · by_cases hj1 : j % 2 = 1
        · rw [lowbit_odd j hj1] at h2; omega
        · obtain ⟨a, ha⟩ : ∃ a, p = 2 * a := ⟨p / 2, by omega⟩
          obtain ⟨b, hb⟩ : ∃ b, j = 2 * b := ⟨j / 2, by omega⟩
          subst ha; subst hb
          rw [lowbit_two_mul] at h2 ⊢
          have hlb : lowbit b ≤ b := lowbit_le b
          have h3 : b - lowbit b < a := by omega
          have h4 : a < b := by omega
          have := IH a (by omega) b h4 h3
          omega

theorem land_split (a b : Nat) (r s : Bool) :
    (2 * a + r.toNat) &&& (2 * b + s.toNat) = 2 * (a &&& b) + (r && s).toNat := by
  have h1 : 2 * a + r.toNat = Nat.bit r a := by cases r <;> simp [Nat.bit] <;> omega
  have h2 : 2 * b + s.toNat = Nat.bit s b := by cases s <;> simp [Nat.bit] <;> omega
  have h3 : 2 * (a &&& b) + (r && s).toNat = Nat.bit (r && s) (a &&& b) := by
    cases r <;> cases s <;> simp [Nat.bit] <;> omega
  rw [h1, h2, h3, Nat.land_bit]

theorem land_mask (t : Nat) : ∀ a, a ≤ 2 ^ t - 1 →
    a &&& (2 ^ t - 1 - a) = 0 := by
  induction t with
  | zero =>
    intro a ha
    have h0 : a = 0 := by simpa using ha
    subst h0
    decide
  | succ t IH =>
    intro a ha
    obtain ⟨A, hA⟩ : ∃ A, 2 ^ t = A := ⟨_, rfl⟩
    have hA1 : 1 ≤ A := by rw [← hA]; exact Nat.one_le_two_pow
    have h2 : 2 ^ (t + 1) = 2 * A := by rw [pow_succ, hA]; ring
    rw [h2] at ha ⊢
    obtain ⟨q, r, rfl⟩ : ∃ q : Nat, ∃ r : Bool, a = 2 * q + r.toNat := by
      refine ⟨a / 2, decide (a % 2 = 1), ?_⟩
      rcases Nat.mod_two_eq_zero_or_one a with h | h <;> simp [h] <;> omega
    have hq : q ≤ A - 1 := by
      cases r <;> simp at ha <;> omega
    have key : 2 * A - 1 - (2 * q + r.toNat) = 2 * (A - 1 - q) + (!r).toNat := by
      cases r <;> simp <;> omega
    rw [key, land_split q (A - 1 - q) r (!r)]
    have IHq : q &&& (A - 1 - q) = 0 := by
      rw [← hA]; exact IH q (by rw [hA]; omega)
    rw [IHq]
    cases r <;> simp

/-- Bridge justifying the translation of the two's complement expression
i & (-i): for every positive operand below the word bound, the bitwise
conjunction of i with its two's complement equals the recursively defined
lowbit.  With w = 64 this covers every representable positive i64. -/
theorem land_two_pow_sub (i : Nat) : 0 < i → ∀ w, i < 2 ^ w →
    i &&& (2 ^ w - i) = lowbit i := by
  induction i using Nat.strong_induction_on with
  | _ i IH =>
    intro hi w hw
    by_cases hodd : i % 2 = 1
    · rw [lowbit_odd i hodd]
      cases w with
      | zero => simp at hw; omega
      | succ w =>
        obtain ⟨A, hA⟩ : ∃ A, 2 ^ w = A := ⟨_, rfl⟩
        have hA1 : 1 ≤ A := by rw [← hA]; exact Nat.one_le_two_pow
        have h2 : 2 ^ (w + 1) = 2 * A := by rw [pow_succ, hA]; ring
        rw [h2] at hw ⊢
        obtain ⟨q, hq⟩ : ∃ q, i = 2 * q + Bool.toNat true := ⟨i / 2, by simp; omega⟩
        simp only [Bool.toNat_true] at hq
        have key : 2 * A - i = 2 * (A - 1 - q) + Bool.toNat true := by simp; omega
        have hq' : i = 2 * q + Bool.toNat true := by simp; omega
        rw [key, hq', land_split q (A - 1 - q) true true]
        have hmq : q &&& (A - 1 - q) = 0 := by
          rw [← hA]; exact land_mask w q (by rw [hA]; omega)
        rw [hmq]
        simp
    · cases w with
      | zero => simp at hw; omega
      | succ w =>
        obtain ⟨A, hA⟩ : ∃ A, 2 ^ w = A := ⟨_, rfl⟩
        have hA1 : 1 ≤ A := by rw [← hA]; exact Nat.one_le_two_pow
        have h2 : 2 ^ (w + 1) = 2 * A := by rw [pow_succ, hA]; ring
        rw [h2] at hw ⊢
        obtain ⟨a, ha⟩ : ∃ a, i = 2 * a := ⟨i / 2, by omega⟩
        have key : 2 * A - i = 2 * (A - a) + Bool.toNat false := by simp; omega
        have ha' : i = 2 * a + Bool.toNat false := by simp; omega
        rw [key, ha', land_split a (A - a) false false]
        have ha1 : 0 < a := by omega
        have hIa : a &&& (A - a) = lowbit a := by
          rw [← hA]; exact IH a (by omega) ha1 w (by rw [hA]; omega)
        rw [hIa]
        have hi2 : 2 * a + Bool.toNat false = 2 * a := by simp
        rw [hi2, lowbit_two_mul]
        simp

end Daxe

namespace Daxe

theorem getD_set_eq (l : List Int) : ∀ i j : Nat, ∀ v : Int,
    (l.set i v).getD j 0 = if i = j ∧ i < l.length then v else l.getD j 0 := by
  induction l with
  | nil => intro i j v; simp [List.set]
  | cons a t IH =>
    intro i j v
    cases i with
    | zero =>
      cases j with
      | zero => simp [List.set]
      | succ j => simp [List.set]
    | succ i =>
      cases j with
      | zero => simp [List.set]
      | succ j =>
        simp only [List.set, List.getD_cons_succ, List.length_cons, IH i j v]
        by_cases h : i = j ∧ i < t.length
        · rw [if_pos h, if_pos (by omega)]
        · rw [if_neg h, if_neg (by omega)]

theorem getD_replicate_zero (n : Nat) : ∀ j : Nat,
    (List.replicate n (0 : Int)).getD j 0 = 0 := by
  induction n with
  | zero => intro j; simp
  | succ n IH =>
    intro j
    cases j with
    | zero => simp [List.replicate]
    | succ j => simp [List.replicate, IH j]

theorem queryLoop_zero_idx (f : Nat) (tree : List Int) :
    queryLoop f tree 0 = 0 := by
  cases f <;> simp [queryLoop]

theorem queryLoop_congr (f : Nat) : ∀ g : Nat, ∀ tree : List Int, ∀ j : Nat,
    j ≤ f → j ≤ g → queryLoop f tree j = queryLoop g tree j := by
  induction f with
  | zero =>
    intro g tree j hf _
    have h0 : j = 0 := by omega
    subst h0
    rw [queryLoop_zero_idx, queryLoop_zero_idx]
  | succ f IH =>
    intro g tree j hf hg
    by_cases h0 : j = 0
    · subst h0; rw [queryLoop_zero_idx, queryLoop_zero_idx]
    · cases g with
      | zero => omega
      | succ g =>
        have hl := lowbit_pos j (by omega)
        simp only [queryLoop, if_pos (by omega : 0 < j)]
        rw [IH g tree (j - lowbit j) (by omega) (by omega)]

theorem updateLoop_gt (f : Nat) (n : Nat) (delta : Int) (tree : List Int)
    (j : Nat) (h : n < j) : updateLoop f n delta tree j = tree := by
  cases f with
  | zero => rfl
  | succ f => simp only [updateLoop, if_neg (by omega : ¬(1 ≤ j ∧ j ≤ n))]

theorem updateLoop_congr (f : Nat) : ∀ g n : Nat, ∀ delta : Int,
    ∀ tree : List Int, ∀ j : Nat, 1 ≤ j → n + 1 - j ≤ f → n + 1 - j ≤ g →
    updateLoop f n delta tree j = updateLoop g n delta tree j := by
  induction f with
  | zero =>
    intro g n delta tree j h1 hf _
    rw [updateLoop_gt 0 n delta tree j (by omega),
        updateLoop_gt g n delta tree j (by omega)]
  | succ f IH =>
    intro g n delta tree j h1 hf hg
    by_cases hj : j ≤ n
    · cases g with
      | zero => omega
      | succ g =>
        have hl := lowbit_pos j (by omega)
        simp only [updateLoop, if_pos (And.intro h1 hj)]
        exact IH g n delta _ (j + lowbit j) (by omega) (by omega) (by omega)
    · rw [updateLoop_gt _ n delta tree j (by omega),
          updateLoop_gt g n delta tree j (by omega)]

theorem updateLoop_length (f : Nat) : ∀ n : Nat, ∀ delta : Int,
    ∀ tree : List Int, ∀ j : Nat,
    (updateLoop f n delta tree j).length = tree.length := by
  induction f with
  | zero => intro n delta tree j; rfl
  | succ f IH =>
    intro n delta tree j
    by_cases h : 1 ≤ j ∧ j ≤ n
    · simp only [updateLoop, if_pos h, IH, List.length_set]
    · simp only [updateLoop, if_neg h]

end Daxe

namespace Daxe

theorem chain_le (n p j : Nat) (h : Chain n p j) :
    1 ≤ p ∧ p ≤ n ∧ p ≤ j ∧ 1 ≤ j ∧ j ≤ n := by
  induction h with
  | base p h1 h2 => exact ⟨h1, h2, le_refl p, h1, h2⟩
  | step p j h1 h2 _ IH =>
    have hl := lowbit_pos p h1
    exact ⟨h1, h2, by omega, IH.2.2.2.1, IH.2.2.2.2⟩

theorem chain_bounds (n p j : Nat) (h : Chain n p j) :
    p ≤ j ∧ j - lowbit j ≤ p - lowbit p := by
  induction h with
  | base p h1 h2 => exact ⟨le_refl p, le_refl _⟩
  | step p j h1 h2 hc IH =>
    have hl := lowbit_pos p h1
    have hadd := lowbit_add p h1
    have hle1 := lowbit_le p
    have hle2 := lowbit_le (p + lowbit p)
    exact ⟨by omega, by omega⟩

theorem chain_of_bounds (n : Nat) : ∀ gas p j : Nat, j - p ≤ gas → 1 ≤ p →
    p ≤ j → j ≤ n → j - lowbit j < p → Chain n p j := by
  intro gas
  induction gas with
  | zero =>
    intro p j hg h1 h2 h3 _
    have he : p = j := by omega
    subst he
    exact Chain.base p h1 h3
  | succ gas IH =>
    intro p j hg h1 h2 h3 h4
    by_cases he : p = j
    · subst he; exact Chain.base p h1 h3
    · have hpj : p < j := by omega
      have hstep := lowbit_between p j hpj h4
      have hl := lowbit_pos p h1
      refine Chain.step p j h1 (by omega) ?_
      exact IH (p + lowbit p) j (by omega) (by omega) hstep h3 (by omega)

theorem chain_iff (n p j : Nat) (hp1 : 1 ≤ p) (hpn : p ≤ n) (hj1 : 1 ≤ j)
    (hjn : j ≤ n) : Chain n p j ↔ (p ≤ j ∧ j - lowbit j < p) := by
  constructor
  · intro h
    have hb := chain_bounds n p j h
    have hl := lowbit_pos p hp1
    have hle := lowbit_le p
    exact ⟨hb.1, by omega⟩
  · intro ⟨h1, h2⟩
    exact chain_of_bounds n (j - p) p j (le_refl _) hp1 h1 hjn h2

theorem updateLoop_getD_notmem (f : Nat) : ∀ n : Nat, ∀ delta : Int,
    ∀ tree : List Int, ∀ j k : Nat, ¬ Chain n j k →
    (updateLoop f n delta tree j).getD k 0 = tree.getD k 0 := by
  induction f with
  | zero => intro n delta tree j k _; rfl
  | succ f IH =>
    intro n delta tree j k hnc
    by_cases hg : 1 ≤ j ∧ j ≤ n
    · have hkj : k ≠ j := by
        intro he; subst he; exact hnc (Chain.base k hg.1 hg.2)
      have hnc2 : ¬ Chain n (j + lowbit j) k := by
        intro hc; exact hnc (Chain.step j k hg.1 hg.2 hc)
      simp only [updateLoop, if_pos hg]
      rw [IH n delta _ (j + lowbit j) k hnc2, getD_set_eq]
      rw [if_neg (by intro hh; exact hkj hh.1.symm)]
    · simp only [updateLoop, if_neg hg]

theorem updateLoop_getD_mem (f : Nat) : ∀ n : Nat, ∀ delta : Int,
    ∀ tree : List Int, ∀ j k : Nat, tree.length = n + 1 → n + 1 - j ≤ f →
    Chain n j k →
    (updateLoop f n delta tree j).getD k 0 = tree.getD k 0 + delta := by
  induction f with
  | zero =>
    intro n delta tree j k _ hf hc
    have hb := chain_le n j k hc
    omega
  | succ f IH =>
    intro n delta tree j k hlen hf hc
    have hb := chain_le n j k hc
    have hg : 1 ≤ j ∧ j ≤ n := ⟨hb.1, hb.2.1⟩
    have hl := lowbit_pos j hg.1
    simp only [updateLoop, if_pos hg]
    cases hc with
    | base =>
      have hnc : ¬ Chain n (j + lowbit j) j := by
        intro hcc
        have := chain_le n (j + lowbit j) j hcc
        omega
      rw [updateLoop_getD_notmem f n delta _ (j + lowbit j) j hnc, getD_set_eq]
      rw [if_pos ⟨rfl, by omega⟩]
    | step _ _ h1 h2 hc2 =>
      have hkj : j ≠ k := by
        have := chain_le n (j + lowbit j) k hc2
        omega
      rw [IH n delta _ (j + lowbit j) k (by rw [List.length_set]; exact hlen)
        (by omega) hc2, getD_set_eq]
      rw [if_neg (by intro hh; exact hkj hh.1)]

end Daxe

namespace Daxe

theorem prefixAcc_zero_fn : ∀ m : Nat, prefixAcc (fun _ => (0 : Int)) m = 0 := by
  intro m
  induction m with
  | zero => rfl
  | succ m IH => simp [prefixAcc, IH]

theorem prefixAcc_congr_lt (a b : Nat → Int) : ∀ m : Nat,
    (∀ k, k < m → a k = b k) → prefixAcc a m = prefixAcc b m := by
  intro m
  induction m with
  | zero => intro _; rfl
  | succ m IH =>
    intro h
    simp only [prefixAcc]
    rw [IH (fun k hk => h k (by omega)), h m (by omega)]

theorem prefixAcc_update (a : Nat → Int) (i : Nat) (d : Int) : ∀ m : Nat,
    prefixAcc (fun k => if k = i then a k + d else a k) m =
      prefixAcc a m + (if i < m then d else 0) := by
  intro m
  induction m with
  | zero => simp [prefixAcc]
  | succ m IH =>
    simp only [prefixAcc, IH]
    by_cases h1 : m = i
    · subst h1
      rw [if_pos rfl, if_neg (by omega), if_pos (by omega)]
      ring
    · rw [if_neg h1]
      by_cases h2 : i < m
      · rw [if_pos h2, if_pos (by omega)]; ring
      · rw [if_neg h2, if_neg (by omega)]; ring

theorem prefixAcc_addf (a b : Nat → Int) : ∀ m : Nat,
    prefixAcc (fun k => a k + b k) m = prefixAcc a m + prefixAcc b m := by
  intro m
  induction m with
  | zero => rfl
  | succ m IH => simp only [prefixAcc, IH]; ring

theorem prefixAcc_single (c d : Int) : ∀ m : Nat,
    prefixAcc (fun k => if c = (k : Int) then d else 0) m =
      if 0 ≤ c ∧ c < (m : Int) then d else 0 := by
  intro m
  induction m with
  | zero =>
    simp only [prefixAcc]
    rw [if_neg (by push_cast; omega)]
  | succ m IH =>
    simp only [prefixAcc, IH]
    by_cases h1 : c = (m : Int)
    · rw [if_pos h1, if_neg (by push_cast; omega), if_pos (by push_cast; omega)]
      ring
    · rw [if_neg h1]
      by_cases h2 : 0 ≤ c ∧ c < (m : Int)
      · rw [if_pos h2, if_pos (by push_cast at h2 ⊢; omega)]; ring
      · rw [if_neg h2, if_neg (by push_cast at h2 ⊢; omega)]; ring

theorem FInv_mk (n : Nat) : FInv (mkFenwick n) (fun _ => 0) := by
  constructor
  · simp [mkFenwick]
  · intro j _ _
    simp only [mkFenwick]
    rw [getD_replicate_zero, prefixAcc_zero_fn, prefixAcc_zero_fn]
    ring

theorem FInv_congr (t : FenwickTree) (a b : Nat → Int) (h : ∀ k, a k = b k)
    (hF : FInv t a) : FInv t b := by
  refine ⟨hF.1, ?_⟩
  intro j h1 h2
  rw [hF.2 j h1 h2, prefixAcc_congr_lt a b j (fun k _ => h k),
      prefixAcc_congr_lt a b (j - lowbit j) (fun k _ => h k)]

theorem update_FInv (t : FenwickTree) (a : Nat → Int) (i delta : Int)
    (hF : FInv t a) :
    FInv (update t i delta)
      (fun k => if (k : Int) = i then a k + delta else a k) := by
  by_cases hoob : i < 0 ∨ (t.n : Int) ≤ i
  · rw [update, if_pos hoob]
    refine ⟨hF.1, ?_⟩
    intro j h1 h2
    rw [hF.2 j h1 h2]
    have hagree : ∀ m : Nat, m ≤ t.n →
        prefixAcc (fun k => if (k : Int) = i then a k + delta else a k) m =
          prefixAcc a m := by
      intro m hm
      apply prefixAcc_congr_lt
      intro k hk
      rw [if_neg (by push_cast; omega)]
    rw [hagree j h2, hagree (j - lowbit j) (by omega)]
  · push_neg at hoob
    obtain ⟨hi0, hin⟩ := hoob
    have hieq : ((i.toNat : Int)) = i := Int.toNat_of_nonneg hi0
    have hin' : i.toNat < t.n := by omega
    rw [update, if_neg (by omega)]
    refine ⟨?_, ?_⟩
    · simp only [updateLoop_length]
      exact hF.1
    · intro j h1 h2
      simp only
      have hswap : ∀ k : Nat, (if (k : Int) = i then a k + delta else a k) =
          (if k = i.toNat then a k + delta else a k) := by
        intro k
        by_cases hk : (k : Int) = i
        · rw [if_pos hk, if_pos (by omega)]
        · rw [if_neg hk, if_neg (by omega)]
      have hcond : ∀ m : Nat,
          prefixAcc (fun k => if (k : Int) = i then a k + delta else a k) m =
            prefixAcc a m + (if i.toNat < m then delta else 0) := by
        intro m
        rw [prefixAcc_congr_lt (fun k => if (k : Int) = i then a k + delta else a k)
          (fun k => if k = i.toNat then a k + delta else a k)
          m (fun k _ => hswap k)]
        exact prefixAcc_update a i.toNat delta m
      by_cases hmem : Chain t.n (i.toNat + 1) j
      · rw [updateLoop_getD_mem (t.n + 1) t.n delta t.tree (i.toNat + 1) j
          hF.1 (by omega) hmem]
        rw [hF.2 j h1 h2, hcond j, hcond (j - lowbit j)]
        have hc := (chain_iff t.n (i.toNat + 1) j (by omega) (by omega) h1 h2).1 hmem
        rw [if_pos (by omega), if_neg (by omega)]
        ring
      · rw [updateLoop_getD_notmem (t.n + 1) t.n delta t.tree (i.toNat + 1) j hmem]
        rw [hF.2 j h1 h2, hcond j, hcond (j - lowbit j)]
        have hc := (chain_iff t.n (i.toNat + 1) j (by omega) (by omega) h1 h2)
        by_cases hj : i.toNat < j
        · have hj2 : i.toNat + 1 ≤ j - lowbit j := by
            rcases Classical.em (j - lowbit j < i.toNat + 1) with hx | hx
            · exact absurd (hc.2 ⟨by omega, hx⟩) hmem
            · omega
          rw [if_pos hj, if_pos (by omega)]
          ring
        · rw [if_neg hj, if_neg (by omega)]
          ring

theorem queryLoop_eq (tree : List Int) (n : Nat) (a : Nat → Int)
    (hcell : ∀ j, 1 ≤ j → j ≤ n →
      tree.getD j 0 = prefixAcc a j - prefixAcc a (j - lowbit j)) :
    ∀ j, j ≤ n → ∀ f, j ≤ f → queryLoop f tree j = prefixAcc a j := by
  intro j
  induction j using Nat.strong_induction_on with
  | _ j IH =>
    intro hjn f hf
    by_cases h0 : j = 0
    · subst h0
      rw [queryLoop_zero_idx]
      rfl
    · cases f with
      | zero => omega
      | succ f =>
        have hl := lowbit_pos j (by omega)
        have hle := lowbit_le j
        simp only [queryLoop, if_pos (by omega : 0 < j)]
        rw [hcell j (by omega) hjn,
            IH (j - lowbit j) (by omega) (by omega) f (by omega)]
        ring

theorem query_eq (t : FenwickTree) (a : Nat → Int) (hF : FInv t a) (i : Int)
    (h0 : 0 ≤ i) (hn : i < (t.n : Int)) :
    query t i = prefixAcc a (i.toNat + 1) := by
  rw [query, if_neg (by omega), if_neg (by omega)]
  have ht : (i + 1).toNat = i.toNat + 1 := by omega
  rw [ht]
  exact queryLoop_eq t.tree t.n a hF.2 (i.toNat + 1) (by omega) t.n (by omega)

end Daxe

namespace Daxe

theorem update_n (t : FenwickTree) (i delta : Int) : (update t i delta).n = t.n := by
  rw [update]
  by_cases h : i < 0 ∨ (t.n : Int) ≤ i
  · rw [if_pos h]
  · rw [if_neg h]

theorem applyUpdates_cons (t : FenwickTree) (u : Int × Int)
    (us : List (Int × Int)) :
    applyUpdates t (u :: us) = applyUpdates (update t u.1 u.2) us := rfl

theorem applyUpdates_n : ∀ us : List (Int × Int), ∀ t : FenwickTree,
    (applyUpdates t us).n = t.n := by
  intro us
  induction us with
  | nil => intro t; rfl
  | cons u us IH =>
    intro t
    rw [applyUpdates_cons, IH, update_n]

theorem applyUpdates_FInv : ∀ us : List (Int × Int), ∀ t : FenwickTree,
    ∀ a : Nat → Int, FInv t a →
    FInv (applyUpdates t us) (fun k => a k + arrOf us k) := by
  intro us
  induction us with
  | nil =>
    intro t a hF
    exact FInv_congr t a _ (fun k => by simp [arrOf]) hF
  | cons u us IH =>
    intro t a hF
    rw [applyUpdates_cons]
    have h1 := update_FInv t a u.1 u.2 hF
    have h2 := IH (update t u.1 u.2) _ h1
    refine FInv_congr _ _ _ ?_ h2
    intro k
    simp only [arrOf]
    by_cases hk : (k : Int) = u.1
    · rw [if_pos hk, if_pos hk.symm]; ring
    · rw [if_neg hk, if_neg (fun hh => hk hh.symm)]; ring

theorem bruteSum_nil (l r : Int) : bruteSum [] l r = 0 := rfl

theorem bruteSum_cons (u : Int × Int) (us : List (Int × Int)) (l r : Int) :
    bruteSum (u :: us) l r =
      (if l ≤ u.1 ∧ u.1 ≤ r then u.2 else 0) + bruteSum us l r := by
  by_cases h1 : l ≤ u.1 <;> by_cases h2 : u.1 ≤ r <;>
    simp [bruteSum, List.filter_cons, h1, h2]

theorem prefix_arrOf (us : List (Int × Int)) : ∀ l r : Int, 0 ≤ l → l ≤ r →
    prefixAcc (arrOf us) (r.toNat + 1) - prefixAcc (arrOf us) l.toNat =
      bruteSum us l r := by
  induction us with
  | nil =>
    intro l r _ _
    rw [bruteSum_nil,
        prefixAcc_congr_lt (arrOf []) (fun _ => 0) _ (fun k _ => rfl),
        prefixAcc_congr_lt (arrOf []) (fun _ => 0) _ (fun k _ => rfl),
        prefixAcc_zero_fn, prefixAcc_zero_fn]
    ring
  | cons u us IH =>
    intro l r hl hlr
    have hsplit : ∀ m : Nat, prefixAcc (arrOf (u :: us)) m =
        prefixAcc (fun k => if u.1 = (k : Int) then u.2 else 0) m +
          prefixAcc (arrOf us) m := by
      intro m
      rw [← prefixAcc_addf]
      exact prefixAcc_congr_lt _ _ m (fun k _ => rfl)
    rw [hsplit, hsplit, prefixAcc_single, prefixAcc_single, bruteSum_cons,
        ← IH l r hl hlr]
    have c1 : ((r.toNat + 1 : Nat) : Int) = r + 1 := by omega
    have c2 : ((l.toNat : Nat) : Int) = l := by omega
    rw [c1, c2]
    split_ifs <;> omega

/-- Claim C1: for every FenwickTree(n) with n ≥ 1 and every sequence of
update(i, delta) calls with indices inside the valid range, and every pair
l ≤ r inside the range, rangequery(l, r) equals the brute-force sum of the
deltas aimed at positions between l and r, and query(r) equals that sum
over positions 0 to r. -/
theorem claim_C1_fenwick (n : Nat) (hn : 1 ≤ n) (us : List (Int × Int))
    (hus : ∀ u ∈ us, 0 ≤ u.1 ∧ u.1 < (n : Int)) (l r : Int) (hl : 0 ≤ l)
    (hlr : l ≤ r) (hr : r < (n : Int)) :
    rangequery (applyUpdates (mkFenwick n) us) l r = bruteSum us l r ∧
    query (applyUpdates (mkFenwick n) us) r = bruteSum us 0 r := by
  have htn : (applyUpdates (mkFenwick n) us).n = n := by
    rw [applyUpdates_n]
    rfl
  have hF : FInv (applyUpdates (mkFenwick n) us) (arrOf us) := by
    have h0 := applyUpdates_FInv us (mkFenwick n) (fun _ => 0) (FInv_mk n)
    exact FInv_congr _ _ _ (fun k => by simp) h0
  have hq : ∀ i : Int, 0 ≤ i → i < (n : Int) →
      query (applyUpdates (mkFenwick n) us) i =
        prefixAcc (arrOf us) (i.toNat + 1) := by
    intro i h1 h2
    exact query_eq _ _ hF i h1 (by rw [htn]; exact h2)
  have hq0 : query (applyUpdates (mkFenwick n) us) r =
      bruteSum us 0 r := by
    rw [hq r (by omega) hr, ← prefix_arrOf us 0 r (le_refl 0) (by omega)]
    have hz : prefixAcc (arrOf us) (Int.toNat 0) = 0 := rfl
    omega
  refine ⟨?_, hq0⟩
  rw [rangequery, htn, if_neg (by omega)]
  by_cases hl0 : 0 < l
  · rw [if_pos hl0, hq r (by omega) hr, hq (l - 1) (by omega) (by omega)]
    have hc : (l - 1).toNat + 1 = l.toNat := by omega
    rw [hc]
    exact prefix_arrOf us l r hl hlr
  · rw [if_neg hl0]
    have hl' : l = 0 := by omega
    subst hl'
    rw [hq r (by omega) hr, ← prefix_arrOf us 0 r (le_refl 0) (by omega)]
    have hz : prefixAcc (arrOf us) (Int.toNat 0) = 0 := rfl
    omega

/-- Claim C1 witness: the worked example of the spec. -/
theorem claim_C1_fenwick_witness :
    query exFenwick 7 = 18 ∧ rangequery exFenwick 3 5 = 15 := by
  constructor
  · have h := (claim_C1_fenwick 10 (by omega) exUpdates (by decide) 0 7
      (by omega) (by omega) (by omega)).2
    exact h.trans (by decide)
  · have h := (claim_C1_fenwick 10 (by omega) exUpdates (by decide) 3 5
      (by omega) (by omega) (by omega)).1
    exact h.trans (by decide)

end Daxe

namespace Daxe

/-- Claim C6: out-of-range update indices are a silent no-op that leaves
the state, and hence every later query, unchanged; query returns 0 for a
negative index and clamps an index at or above n to n - 1; rangequery
returns 0 when l > r or when the whole interval lies outside the valid
range, and otherwise equals query(r) minus query(l - 1). -/
theorem claim_C6_fenwick_bounds (t : FenwickTree) (i delta l r : Int) :
    ((i < 0 ∨ (t.n : Int) ≤ i) → update t i delta = t) ∧
    (i < 0 → query t i = 0) ∧
    ((t.n : Int) ≤ i → query t i = query t ((t.n : Int) - 1)) ∧
    ((l > r ∨ (l ≤ r ∧ (r < 0 ∨ (t.n : Int) ≤ l))) → rangequery t l r = 0) ∧
    (l ≤ r → 0 ≤ r → l < (t.n : Int) →
      rangequery t l r = query t r - query t (l - 1)) := by
  refine ⟨?_, ?_, ?_, ?_, ?_⟩
  · intro h
    rw [update, if_pos h]
  · intro h
    rw [query, if_pos h]
  · intro h
    by_cases hn : t.n = 0
    · have h0 : (t.n : Int) = 0 := by rw [hn]; rfl
      rw [query, query, if_neg (by omega), if_pos (by omega), if_pos (by omega)]
      rw [show ((t.n : Int) - 1 + 1).toNat = 0 by omega]
      rw [queryLoop_zero_idx]
    · rw [query, query, if_neg (by omega), if_pos h, if_neg (by omega),
          if_neg (by omega)]
  · intro h
    rw [rangequery, if_pos (by omega)]
  · intro h1 h2 h3
    rw [rangequery, if_neg (by omega)]
    by_cases hl : 0 < l
    · rw [if_pos hl]
    · rw [if_neg hl]
      have hzero : query t (l - 1) = 0 := by
        rw [query, if_pos (by omega)]
      rw [hzero]

/-- Claim C6 witness: each bound case exercised on a size-10 tree. -/
theorem claim_C6_fenwick_bounds_witness :
    update (mkFenwick 10) (-1) 5 = mkFenwick 10 ∧
    update exFenwick 100 5 = exFenwick ∧
    query exFenwick (-1) = 0 ∧
    query exFenwick 100 = query exFenwick 9 ∧
    rangequery exFenwick 5 3 = 0 ∧
    rangequery exFenwick 3 5 = query exFenwick 5 - query exFenwick 2 := by
  refine ⟨?_, ?_, ?_, ?_, ?_, ?_⟩
  · exact (claim_C6_fenwick_bounds (mkFenwick 10) (-1) 5 0 0).1 (by decide)
  · exact (claim_C6_fenwick_bounds exFenwick 100 5 0 0).1 (by decide)
  · exact (claim_C6_fenwick_bounds exFenwick (-1) 0 0 0).2.1 (by decide)
  · have h := (claim_C6_fenwick_bounds exFenwick 100 0 0 0).2.2.1 (by decide)
    exact h
  · exact (claim_C6_fenwick_bounds exFenwick 0 0 5 3).2.2.2.1 (by decide)
  · have h := (claim_C6_fenwick_bounds exFenwick 0 0 3 5).2.2.2.2
      (by decide) (by decide) (by decide)
    rw [h]
    rw [show (3 : Int) - 1 = 2 by decide]

theorem updateAccs_bounds (f : Nat) : ∀ n j : Nat, ∀ x, x ∈ updateAccs f n j →
    1 ≤ x ∧ x ≤ n := by
  induction f with
  | zero => intro n j x hx; simp [updateAccs] at hx
  | succ f IH =>
    intro n j x hx
    by_cases h : 1 ≤ j ∧ j ≤ n
    · rw [updateAccs, if_pos h] at hx
      rcases List.mem_cons.1 hx with he | ht
      · subst he; exact h
      · exact IH n (j + lowbit j) x ht
    · rw [updateAccs, if_neg h] at hx
      simp at hx

theorem queryAccs_le (f : Nat) : ∀ j : Nat, ∀ x, x ∈ queryAccs f j →
    1 ≤ x ∧ x ≤ j := by
  induction f with
  | zero => intro j x hx; simp [queryAccs] at hx
  | succ f IH =>
    intro j x hx
    by_cases h : 0 < j
    · rw [queryAccs, if_pos h] at hx
      rcases List.mem_cons.1 hx with he | ht
      · subst he; omega
      · have := IH (j - lowbit j) x ht
        omega
    · rw [queryAccs, if_neg h] at hx
      simp at hx

theorem queryAccesses_bounds (n : Nat) (i : Int) : ∀ x, x ∈ queryAccesses n i →
    1 ≤ x ∧ x ≤ n := by
  intro x hx
  rw [queryAccesses] at hx
  by_cases h : i < 0
  · rw [if_pos h] at hx; simp at hx
  · rw [if_neg h] at hx
    have hb := queryAccs_le n _ x hx
    have hle : (((if (n : Int) ≤ i then (n : Int) - 1 else i) + 1).toNat) ≤ n := by
      by_cases h2 : (n : Int) ≤ i
      · rw [if_pos h2]; omega
      · rw [if_neg h2]; omega
    omega

theorem query_mk_zero (i : Int) : query (mkFenwick 0) i = 0 := by
  have hn0 : (mkFenwick 0).n = 0 := rfl
  by_cases h : i < 0
  · rw [query, if_pos h]
  · rw [query, hn0, if_neg h, if_pos (by omega)]
    rw [show (((0 : Nat) : Int) - 1 + 1).toNat = 0 by omega]
    rw [queryLoop_zero_idx]

/-- Claim C10: after the bounds guards, every backing-array index touched
by update, query or rangequery lies between 1 and n, inside the array of
n + 1 cells; on a size-0 tree every query and rangequery returns 0 and
every update leaves the tree unchanged. -/
theorem claim_C10_fenwick_access (n : Nat) (i delta l r : Int) :
    (∀ x, x ∈ updateAccesses n i → 1 ≤ x ∧ x ≤ n) ∧
    (∀ x, x ∈ queryAccesses n i → 1 ≤ x ∧ x ≤ n) ∧
    (∀ x, x ∈ rangequeryAccesses n l r → 1 ≤ x ∧ x ≤ n) ∧
    query (mkFenwick 0) i = 0 ∧
    rangequery (mkFenwick 0) l r = 0 ∧
    update (mkFenwick 0) i delta = mkFenwick 0 := by
  refine ⟨?_, queryAccesses_bounds n i, ?_, query_mk_zero i, ?_, ?_⟩
  · intro x hx
    rw [updateAccesses] at hx
    by_cases h : i < 0 ∨ (n : Int) ≤ i
    · rw [if_pos h] at hx; simp at hx
    · rw [if_neg h] at hx
      exact updateAccs_bounds (n + 1) n (i.toNat + 1) x hx
  · intro x hx
    rw [rangequeryAccesses] at hx
    by_cases h : l > r ∨ r < 0 ∨ (n : Int) ≤ l
    · rw [if_pos h] at hx; simp at hx
    · rw [if_neg h] at hx
      rcases List.mem_append.1 hx with h1 | h1
      · exact queryAccesses_bounds n r x h1
      · by_cases h2 : 0 < l
        · rw [if_pos h2] at h1
          exact queryAccesses_bounds n (l - 1) x h1
        · rw [if_neg h2] at h1; simp at h1
  · have hn0 : (mkFenwick 0).n = 0 := rfl
    by_cases h : l > r ∨ r < 0 ∨ ((mkFenwick 0).n : Int) ≤ l
    · rw [rangequery, if_pos h]
    · rw [rangequery, if_neg h]
      rw [query_mk_zero r]
      have hl0 : ¬ (0 : Int) < l := by rw [hn0] at h; omega
      rw [if_neg hl0]
      ring
  · have hn0 : (mkFenwick 0).n = 0 := rfl
    rw [update, hn0, if_pos (by omega)]

/-- Claim C10 witness: concrete accessed indices of the size-10 tree and
the degenerate size-0 behaviours. -/
theorem claim_C10_fenwick_access_witness :
    (1 ≤ 4 ∧ 4 ≤ 10) ∧ (1 ≤ 8 ∧ 8 ≤ 10) ∧ (1 ≤ 6 ∧ 6 ≤ 10) ∧
    query (mkFenwick 0) 5 = 0 ∧ rangequery (mkFenwick 0) 0 3 = 0 ∧
    update (mkFenwick 0) 2 7 = mkFenwick 0 := by
  refine ⟨?_, ?_, ?_, ?_, ?_, ?_⟩
  · exact (claim_C10_fenwick_access 10 3 0 0 0).1 4 (by decide)
  · exact (claim_C10_fenwick_access 10 7 0 0 0).2.1 8 (by decide)
  · exact (claim_C10_fenwick_access 10 0 0 3 5).2.2.1 6 (by decide)
  · exact (claim_C10_fenwick_access 0 5 0 0 0).2.2.2.1
  · exact (claim_C10_fenwick_access 0 0 0 0 3).2.2.2.2.1
  · exact (claim_C10_fenwick_access 0 2 7 0 0).2.2.2.2.2

end Daxe

namespace Daxe

theorem stp_lt (s : DSU) (hv : ValidP s) (k : Nat) (hk : k < s.parent.length) :
    stp s k < s.parent.length := by
  have := hv k hk
  rw [stp]
  omega

theorem iterStep_succ_right (s : DSU) : ∀ m k : Nat,
    iterStep s (m + 1) k = stp s (iterStep s m k) := by
  intro m
  induction m with
  | zero => intro k; rfl
  | succ m IH =>
    intro k
    show iterStep s (m + 1) (stp s k) = stp s (iterStep s (m + 1) k)
    rw [IH (stp s k)]
    rfl

theorem iterStep_lt (s : DSU) (hv : ValidP s) : ∀ m k : Nat,
    k < s.parent.length → iterStep s m k < s.parent.length := by
  intro m
  induction m with
  | zero => intro k hk; exact hk
  | succ m IH => intro k hk; exact IH (stp s k) (stp_lt s hv k hk)

theorem isRoot_stp (s : DSU) (k : Nat) (h : isRoot s k) : stp s k = k := by
  rw [stp, h]
  omega

theorem iterStep_root (s : DSU) (k : Nat) (h : isRoot s k) : ∀ m : Nat,
    iterStep s m k = k := by
  intro m
  induction m with
  | zero => rfl
  | succ m IH =>
    show iterStep s m (stp s k) = k
    rw [isRoot_stp s k h]
    exact IH

theorem iterStep_add (s : DSU) : ∀ a c k : Nat,
    iterStep s (a + c) k = iterStep s c (iterStep s a k) := by
  intro a
  induction a with
  | zero => intro c k; rw [Nat.zero_add]; rfl
  | succ a IH =>
    intro c k
    rw [show a + 1 + c = (a + c) + 1 by omega]
    show iterStep s (a + c) (stp s k) = iterStep s c (iterStep s (a + 1) k)
    rw [IH c (stp s k)]
    rfl

theorem root_reach_unique (s : DSU) (k a b : Nat)
    (ha : isRoot s (iterStep s a k)) (hb : isRoot s (iterStep s b k)) :
    iterStep s a k = iterStep s b k := by
  have H : ∀ a b : Nat, a ≤ b → isRoot s (iterStep s a k) →
      iterStep s b k = iterStep s a k := by
    intro a b hab hr
    rw [show b = a + (b - a) by omega, iterStep_add]
    exact iterStep_root s _ hr (b - a)
  rcases le_total a b with h | h
  · rw [H a b h ha]
  · rw [H b a h hb]

theorem rootAux_ok (f : Nat) : ∀ (s : DSU) (k m : Nat), m ≤ f →
    isRoot s (iterStep s m k) →
    isRoot s (rootAux f s k) ∧ ∃ m2, iterStep s m2 k = rootAux f s k := by
  induction f with
  | zero =>
    intro s k m hm hr
    have h0 : m = 0 := by omega
    subst h0
    exact ⟨hr, 0, rfl⟩
  | succ f IH =>
    intro s k m hm hr
    by_cases h : isRoot s k
    · rw [rootAux, if_pos h]
      exact ⟨h, 0, rfl⟩
    · rw [rootAux, if_neg h]
      cases m with
      | zero => exact absurd hr h
      | succ m =>
        have hr2 : isRoot s (iterStep s m (stp s k)) := hr
        obtain ⟨h1, m2, h2⟩ := IH s (stp s k) m (by omega) hr2
        exact ⟨h1, m2 + 1, h2⟩

theorem rootOf_spec (s : DSU) (hg : Grounded s) (k : Nat)
    (hk : k < s.parent.length) :
    isRoot s (rootOf s k) ∧ ∃ m, iterStep s m k = rootOf s k := by
  obtain ⟨m, hm, hr⟩ := hg k hk
  exact rootAux_ok s.parent.length s k m (by omega) hr

theorem rootOf_lt (s : DSU) (hv : ValidP s) (hg : Grounded s) (k : Nat)
    (hk : k < s.parent.length) : rootOf s k < s.parent.length := by
  obtain ⟨_, m, hm⟩ := rootOf_spec s hg k hk
  rw [← hm]
  exact iterStep_lt s hv m k hk

theorem rootOf_eq_self (s : DSU) (hg : Grounded s) (k : Nat)
    (hk : k < s.parent.length) (h : isRoot s k) : rootOf s k = k := by
  obtain ⟨hr, m, hm⟩ := rootOf_spec s hg k hk
  rw [← hm]
  exact (root_reach_unique s k m 0 (by rw [hm]; exact hr) h)

theorem isRoot_of_rootOf_eq (s : DSU) (hg : Grounded s) (k : Nat)
    (hk : k < s.parent.length) (h : rootOf s k = k) : isRoot s k := by
  have := (rootOf_spec s hg k hk).1
  rw [h] at this
  exact this

theorem rootOf_stp (s : DSU) (hv : ValidP s) (hg : Grounded s) (k : Nat)
    (hk : k < s.parent.length) (h : ¬ isRoot s k) :
    rootOf s (stp s k) = rootOf s k := by
  obtain ⟨hr1, m1, hm1⟩ := rootOf_spec s hg (stp s k) (stp_lt s hv k hk)
  obtain ⟨hr2, m2, hm2⟩ := rootOf_spec s hg k hk
  have hshift : iterStep s (m1 + 1) k = rootOf s (stp s k) := hm1
  rw [← hshift, ← hm2]
  exact root_reach_unique s k (m1 + 1) m2 (by rw [hshift]; exact hr1)
    (by rw [hm2]; exact hr2)

theorem rootOf_idem (s : DSU) (hv : ValidP s) (hg : Grounded s) (k : Nat)
    (hk : k < s.parent.length) : rootOf s (rootOf s k) = rootOf s k :=
  rootOf_eq_self s hg (rootOf s k) (rootOf_lt s hv hg k hk)
    (rootOf_spec s hg k hk).1

theorem pathMem_self (s : DSU) (x : Nat) : pathMem s x x :=
  ⟨0, rfl, fun j hj => absurd hj (by omega)⟩

theorem pathMem_cons (s : DSU) (x : Nat) (h : ¬ isRoot s x) (k : Nat)
    (hk : pathMem s (stp s x) k) : pathMem s x k := by
  obtain ⟨m, hm, hall⟩ := hk
  refine ⟨m + 1, hm, ?_⟩
  intro j hj
  cases j with
  | zero => exact h
  | succ j => exact hall j (by omega)

theorem pathMem_split (s : DSU) (x k : Nat) (hk : pathMem s x k)
    (hne : k ≠ x) : ¬ isRoot s x ∧ pathMem s (stp s x) k := by
  obtain ⟨m, hm, hall⟩ := hk
  cases m with
  | zero => exact absurd hm.symm (by rw [iterStep] at hm ⊢; exact fun hh => hne hm.symm)
  | succ m =>
    exact ⟨hall 0 (by omega), m, hm, fun j hj => hall (j + 1) (by omega)⟩

theorem pathMem_lt (s : DSU) (hv : ValidP s) (x k : Nat)
    (hx : x < s.parent.length) (h : pathMem s x k) : k < s.parent.length := by
  obtain ⟨m, hm, _⟩ := h
  rw [← hm]
  exact iterStep_lt s hv m x hx

theorem pathMem_rootOf_eq (s : DSU) (hv : ValidP s) (hg : Grounded s) :
    ∀ m x k : Nat, x < s.parent.length → iterStep s m x = k →
    (∀ j, j < m → ¬ isRoot s (iterStep s j x)) → rootOf s k = rootOf s x := by
  intro m
  induction m with
  | zero => intro x k _ hm _; rw [← hm]; rfl
  | succ m IH =>
    intro x k hx hm hall
    have h0 : ¬ isRoot s x := hall 0 (by omega)
    have hm2 : iterStep s m (stp s x) = k := hm
    have IH2 := IH (stp s x) k (stp_lt s hv x hx) hm2
      (fun j hj => hall (j + 1) (by omega))
    rw [IH2, rootOf_stp s hv hg x hx h0]

theorem pathMem_rootOf (s : DSU) (hv : ValidP s) (hg : Grounded s) (x : Nat)
    (hx : x < s.parent.length) : pathMem s x (rootOf s x) := by
  have hex : ∃ m, isRoot s (iterStep s m x) := by
    obtain ⟨m, _, hr⟩ := hg x hx
    exact ⟨m, hr⟩
  have hfind := Nat.find_spec hex
  refine ⟨Nat.find hex, ?_, fun j hj => Nat.find_min hex hj⟩
  obtain ⟨hr, m2, hm2⟩ := rootOf_spec s hg x hx
  rw [← hm2]
  exact root_reach_unique s x (Nat.find hex) m2 hfind (by rw [hm2]; exact hr)

end Daxe

namespace Daxe

theorem rank_chain (s : DSU) (hInv : Inv s) (k : Nat)
    (hk : k < s.parent.length) : ∀ c a : Nat,
    (∀ j, j < a + c + 1 → ¬ isRoot s (iterStep s j k)) →
    rnk s (iterStep s a k) < rnk s (iterStep s (a + c + 1) k) := by
  intro c
  induction c with
  | zero =>
    intro a hall
    have hlt := iterStep_lt s hInv.1 a k hk
    have hstep := hInv.2.2 (iterStep s a k) hlt (hall a (by omega))
    rw [iterStep_succ_right]
    exact hstep
  | succ c IH =>
    intro a hall
    have h1 := IH a (fun j hj => hall j (by omega))
    have hlt := iterStep_lt s hInv.1 (a + c + 1) k hk
    have hstep := hInv.2.2 (iterStep s (a + c + 1) k) hlt
      (hall (a + c + 1) (by omega))
    rw [show a + (c + 1) + 1 = (a + c + 1) + 1 by omega, iterStep_succ_right]
    omega

theorem grounded_of_inv (s : DSU) (hInv : Inv s) : Grounded s := by
  intro k hk
  by_contra hno
  push_neg at hno
  have hinj : Function.Injective
      (fun m : Fin (s.parent.length + 1) =>
        (⟨iterStep s m.val k, iterStep_lt s hInv.1 m.val k hk⟩ :
          Fin s.parent.length)) := by
    intro a b hab
    simp only [Fin.mk.injEq] at hab
    by_contra hne
    have hwlog : ∀ a b : Fin (s.parent.length + 1), a.val < b.val →
        iterStep s a.val k = iterStep s b.val k → False := by
      intro a b hlt he
      have hc := rank_chain s hInv k hk (b.val - a.val - 1) a.val
        (fun j hj => hno j (by omega))
      rw [show a.val + (b.val - a.val - 1) + 1 = b.val by omega] at hc
      rw [he] at hc
      omega
    rcases Nat.lt_or_ge a.val b.val with h | h
    · exact hwlog a b h hab
    · have hba : b.val < a.val := by
        rcases Nat.lt_or_ge b.val a.val with h2 | h2
        · exact h2
        · exact absurd (Fin.val_injective (by omega)) hne
      exact hwlog b a hba hab.symm
  have := Fintype.card_le_of_injective _ hinj
  simp at this

theorem rank_lt_root (s : DSU) (hInv : Inv s) (k : Nat)
    (hk : k < s.parent.length) (h : ¬ isRoot s k) :
    rnk s k < rnk s (rootOf s k) := by
  have hg := grounded_of_inv s hInv
  have hex : ∃ m, isRoot s (iterStep s m k) := by
    obtain ⟨m, _, hr⟩ := hg k hk
    exact ⟨m, hr⟩
  have hfind := Nat.find_spec hex
  have hmin : ∀ j, j < Nat.find hex → ¬ isRoot s (iterStep s j k) :=
    fun j hj => Nat.find_min hex hj
  have hm0 : 1 ≤ Nat.find hex := by
    by_contra hh
    have h0 : Nat.find hex = 0 := by omega
    rw [h0] at hfind
    exact h hfind
  have hroot_eq : iterStep s (Nat.find hex) k = rootOf s k := by
    obtain ⟨hr, m2, hm2⟩ := rootOf_spec s hg k hk
    rw [← hm2]
    exact root_reach_unique s k (Nat.find hex) m2 hfind (by rw [hm2]; exact hr)
  have hc := rank_chain s hInv k hk (Nat.find hex - 1) 0
    (fun j hj => hmin j (by omega))
  rw [show 0 + (Nat.find hex - 1) + 1 = Nat.find hex by omega, hroot_eq] at hc
  exact hc

end Daxe

namespace Daxe

theorem findAux_succ (f : Nat) (s : DSU) (x : Int) :
    findAux (f + 1) s x =
      if x < 0 ∨ (s.parent.length : Int) ≤ x then (-1, s)
      else
        if s.parent.getD x.toNat 0 = x then (s.parent.getD x.toNat 0, s)
        else
          ((((findAux f s (s.parent.getD x.toNat 0)).2.parent.set x.toNat
              (findAux f s (s.parent.getD x.toNat 0)).1).getD x.toNat 0),
            ⟨(findAux f s (s.parent.getD x.toNat 0)).2.parent.set x.toNat
              (findAux f s (s.parent.getD x.toNat 0)).1,
              (findAux f s (s.parent.getD x.toNat 0)).2.rank⟩) := rfl

theorem findAux_spec (f : Nat) : ∀ (s : DSU) (x : Int) (m : Nat),
    Inv s → 0 ≤ x → x < (s.parent.length : Int) →
    m < f → isRoot s (iterStep s m x.toNat) →
    (findAux f s x).1 = ((rootOf s x.toNat : Nat) : Int) ∧
    (findAux f s x).2.rank = s.rank ∧
    (findAux f s x).2.parent.length = s.parent.length ∧
    (∀ k, k < s.parent.length → (¬ pathMem s x.toNat k ∨ isRoot s k) →
      pv (findAux f s x).2 k = pv s k) ∧
    (∀ k, k < s.parent.length → pathMem s x.toNat k → ¬ isRoot s k →
      pv (findAux f s x).2 k = ((rootOf s x.toNat : Nat) : Int)) ∧
    Inv (findAux f s x).2 := by
  induction f with
  | zero => intro s x m _ _ _ hm _; omega
  | succ f IH =>
    intro s x m hInv hx0 hxL hm hroot
    have hg := grounded_of_inv s hInv
    have hieq : ((x.toNat : Nat) : Int) = x := Int.toNat_of_nonneg hx0
    have hxlt : x.toNat < s.parent.length := by omega
    rw [findAux_succ, if_neg (by omega)]
    by_cases hpx : s.parent.getD x.toNat 0 = x
    · -- x is already its own parent: no mutation
      have hisr : isRoot s x.toNat := by
        rw [isRoot, pv, hieq]
        exact hpx
      have hre : rootOf s x.toNat = x.toNat := rootOf_eq_self s hg x.toNat hxlt hisr
      rw [if_pos hpx]
      refine ⟨by rw [hre, hieq]; exact hpx, rfl, rfl, fun k _ _ => rfl, ?_, hInv⟩
      intro k hk hpm hnr
      exfalso
      obtain ⟨mm, hmm, hall⟩ := hpm
      cases mm with
      | zero => exact hnr (by rw [← hmm]; exact hisr)
      | succ mm => exact hall 0 (by omega) hisr
    · -- the parent of x differs from x: recurse, then compress x
      have hnr : ¬ isRoot s x.toNat := by
        rw [isRoot, pv, hieq]
        exact hpx
      have hpxv := hInv.1 x.toNat hxlt
      have hpx0 : 0 ≤ s.parent.getD x.toNat 0 := hpxv.1
      have hpxL : s.parent.getD x.toNat 0 < (s.parent.length : Int) := hpxv.2
      have hstp : (s.parent.getD x.toNat 0).toNat = stp s x.toNat := rfl
      cases m with
      | zero => exact absurd hroot hnr
      | succ m =>
        have hroot2 : isRoot s (iterStep s m (stp s x.toNat)) := hroot
        have hIH := IH s (s.parent.getD x.toNat 0) m hInv hpx0 hpxL (by omega)
          (by rw [hstp]; exact hroot2)
        obtain ⟨hval, hrank, hlen, hunch, hcomp, hInv1⟩ := hIH
        have hrootx : rootOf s (s.parent.getD x.toNat 0).toNat =
            rootOf s x.toNat := by
          rw [hstp]
          exact rootOf_stp s hInv.1 hg x.toNat hxlt hnr
        rw [if_neg hpx]
        have hxlt1 : x.toNat <
            (findAux f s (s.parent.getD x.toNat 0)).2.parent.length := by
          rw [hlen]; exact hxlt
        set r1 : Int := (findAux f s (s.parent.getD x.toNat 0)).1 with hr1
        set s1 : DSU := (findAux f s (s.parent.getD x.toNat 0)).2 with hs1
        have hg2 : ∀ k : Nat, (s1.parent.set x.toNat r1).getD k 0 =
            if x.toNat = k then ((rootOf s x.toNat : Nat) : Int)
            else pv s1 k := by
          intro k
          rw [getD_set_eq]
          by_cases hk : x.toNat = k
          · rw [if_pos ⟨hk, hxlt1⟩, if_pos hk, hval, hrootx]
          · rw [if_neg (fun hh => hk hh.1), if_neg hk]
            rfl
        have hrlt := rootOf_lt s hInv.1 hg x.toNat hxlt
        have hrne : rootOf s x.toNat ≠ x.toNat := by
          intro hh
          exact hnr (isRoot_of_rootOf_eq s hg x.toNat hxlt hh)
        set s2 : DSU := (⟨s1.parent.set x.toNat r1, s1.rank⟩ : DSU) with hs2
        have hpv2 : ∀ k : Nat, pv s2 k =
            if x.toNat = k then ((rootOf s x.toNat : Nat) : Int)
            else pv s1 k := by
          intro k
          show (s1.parent.set x.toNat r1).getD k 0 = _
          exact hg2 k
        have hrnk2 : ∀ j : Nat, rnk s2 j = rnk s j := by
          intro j
          show s1.rank.getD j 0 = s.rank.getD j 0
          rw [hrank]
        have hlen2 : s2.parent.length = s.parent.length := by
          show (s1.parent.set x.toNat r1).length = s.parent.length
          rw [List.length_set, hlen]
        refine ⟨?_, ?_, hlen2, ?_, ?_, ?_⟩
        · show (s1.parent.set x.toNat r1).getD x.toNat 0 = _
          rw [hg2 x.toNat, if_pos rfl]
        · show s1.rank = s.rank
          exact hrank
        · intro k hk hside
          have hkx : k ≠ x.toNat := by
            intro hh
            rcases hside with h1 | h1
            · rw [hh] at h1
              exact h1 (pathMem_self s x.toNat)
            · rw [hh] at h1
              exact hnr h1
          rw [hpv2 k, if_neg (fun hh => hkx hh.symm)]
          refine hunch k hk ?_
          rcases hside with h1 | h1
          · left
            intro hpm
            exact h1 (pathMem_cons s x.toNat hnr k (by rw [← hstp]; exact hpm))
          · right; exact h1
        · intro k hk hpm hknr
          rw [hpv2 k]
          by_cases hkx : x.toNat = k
          · rw [if_pos hkx]
          · rw [if_neg hkx]
            obtain ⟨hxnr, hpm2⟩ := pathMem_split s x.toNat k hpm
              (fun hh => hkx hh.symm)
            rw [hcomp k hk (by rw [hstp]; exact hpm2) hknr, hrootx]
        · -- the invariant for the compressed state
          refine ⟨?_, ?_, ?_⟩
          · intro k hk2
            have hk : k < s.parent.length := by rw [← hlen2]; exact hk2
            rw [hlen2, hpv2 k]
            by_cases hkx : x.toNat = k
            · rw [if_pos hkx]
              constructor
              · omega
              · omega
            · rw [if_neg hkx]
              have := hInv1.1 k (by rw [hlen]; exact hk)
              rw [hlen] at this
              exact this
          · show s1.rank.length = s2.parent.length
            have : s1.rank.length = s.rank.length := by rw [hrank]
            rw [this, hlen2]
            exact hInv.2.1
          · intro k hk2 hknr2
            have hk : k < s.parent.length := by rw [← hlen2]; exact hk2
            rw [hrnk2, hrnk2]
            by_cases hkx : x.toNat = k
            · have hstpk : stp s2 k = rootOf s x.toNat := by
                show (pv s2 k).toNat = _
                rw [hpv2 k, if_pos hkx]
                omega
              rw [hstpk, ← hkx]
              exact rank_lt_root s hInv x.toNat hxlt hnr
            · have hpveq : pv s2 k = pv s1 k := by
                rw [hpv2 k, if_neg hkx]
              have hknr1 : ¬ isRoot s1 k := by
                rw [isRoot, ← hpveq]
                exact hknr2
              have hstpk : stp s2 k = stp s1 k := by
                show (pv s2 k).toNat = (pv s1 k).toNat
                rw [hpveq]
              rw [hstpk]
              have hR := hInv1.2.2 k (by rw [hlen]; exact hk) hknr1
              have hrnk1 : ∀ j : Nat, rnk s1 j = rnk s j := by
                intro j
                show s1.rank.getD j 0 = s.rank.getD j 0
                rw [hrank]
              rw [hrnk1, hrnk1] at hR
              exact hR
end Daxe

namespace Daxe

theorem find_oob (s : DSU) (x : Int)
    (h : x < 0 ∨ (s.parent.length : Int) ≤ x) : find s x = (-1, s) := by
  rw [find]
  rcases hn : s.parent.length with _ | L
  · rfl
  · rw [hn] at h
    rw [findAux_succ, if_pos (by omega)]

theorem find_spec (s : DSU) (x : Int) (hInv : Inv s) (h0 : 0 ≤ x)
    (hL : x < (s.parent.length : Int)) :
    (find s x).1 = ((rootOf s x.toNat : Nat) : Int) ∧
    (find s x).2.rank = s.rank ∧
    (find s x).2.parent.length = s.parent.length ∧
    (∀ k, k < s.parent.length → (¬ pathMem s x.toNat k ∨ isRoot s k) →
      pv (find s x).2 k = pv s k) ∧
    (∀ k, k < s.parent.length → pathMem s x.toNat k → ¬ isRoot s k →
      pv (find s x).2 k = ((rootOf s x.toNat : Nat) : Int)) ∧
    Inv (find s x).2 := by
  obtain ⟨m, hm, hr⟩ := grounded_of_inv s hInv x.toNat (by omega)
  exact findAux_spec s.parent.length s x m hInv h0 hL hm hr

theorem pres_refl (s : DSU) (hInv : Inv s) : Pres s s :=
  ⟨hInv, rfl, rfl, fun _ _ => ⟨Iff.rfl, rfl⟩⟩

theorem pres_trans (s1 s2 s3 : DSU) (h12 : Pres s1 s2) (h23 : Pres s2 s3) :
    Pres s1 s3 := by
  refine ⟨h23.1, by rw [h23.2.1, h12.2.1], by rw [h23.2.2.1, h12.2.2.1], ?_⟩
  intro k hk
  have hk2 : k < s2.parent.length := by rw [h12.2.1]; exact hk
  have a1 := h12.2.2.2 k hk
  have a2 := h23.2.2.2 k hk2
  exact ⟨a2.1.trans a1.1, a2.2.trans a1.2⟩

theorem redirect_roots (s s' : DSU) (hv : ValidP s) (hg : Grounded s)
    (hlen : s'.parent.length = s.parent.length)
    (hv' : ValidP s') (hg' : Grounded s')
    (H : ∀ k, k < s.parent.length →
      pv s' k = pv s k ∨ pv s' k = ((rootOf s k : Nat) : Int)) :
    ∀ k, k < s.parent.length →
      ((isRoot s' k ↔ isRoot s k) ∧ rootOf s' k = rootOf s k) := by
  have hiff : ∀ k, k < s.parent.length → (isRoot s' k ↔ isRoot s k) := by
    intro k hk
    rcases H k hk with h | h
    · rw [isRoot, isRoot, h]
    · constructor
      · intro hr'
        rw [isRoot, h] at hr'
        have : rootOf s k = k := by exact_mod_cast hr'
        exact isRoot_of_rootOf_eq s hg k hk this
      · intro hr
        rw [isRoot, h, rootOf_eq_self s hg k hk hr]
  have hroot : ∀ m' k, k < s.parent.length →
      isRoot s' (iterStep s' m' k) → rootOf s' k = rootOf s k := by
    intro m'
    induction m' with
    | zero =>
      intro k hk hr'
      have hrs : isRoot s k := (hiff k hk).1 hr'
      rw [rootOf_eq_self s' hg' k (by rw [hlen]; exact hk) hr',
          rootOf_eq_self s hg k hk hrs]
    | succ m' IH =>
      intro k hk hr'
      by_cases hk' : isRoot s' k
      · have hrs : isRoot s k := (hiff k hk).1 hk'
        rw [rootOf_eq_self s' hg' k (by rw [hlen]; exact hk) hk',
            rootOf_eq_self s hg k hk hrs]
      · have hks : ¬ isRoot s k := fun hh => hk' ((hiff k hk).2 hh)
        have hstep : rootOf s' k = rootOf s' (stp s' k) :=
          (rootOf_stp s' hv' hg' k (by rw [hlen]; exact hk) hk').symm
        have hslt : stp s' k < s.parent.length := by
          have := stp_lt s' hv' k (by rw [hlen]; exact hk)
          rw [hlen] at this
          exact this
        have hr2 : isRoot s' (iterStep s' m' (stp s' k)) := hr'
        have hIH := IH (stp s' k) hslt hr2
        rw [hstep, hIH]
        rcases H k hk with h | h
        · have : stp s' k = stp s k := by rw [stp, stp, h]
          rw [this]
          exact rootOf_stp s hv hg k hk hks
        · have : stp s' k = rootOf s k := by rw [stp, h]; omega
          rw [this]
          exact rootOf_idem s hv hg k hk
  intro k hk
  refine ⟨hiff k hk, ?_⟩
  obtain ⟨m', _, hr'⟩ := hg' k (by rw [hlen]; exact hk)
  exact hroot m' k hk hr'

theorem find_full (s : DSU) (hInv : Inv s) (x : Int) (h0 : 0 ≤ x)
    (hL : x < (s.parent.length : Int)) :
    (find s x).1 = ((rootOf s x.toNat : Nat) : Int) ∧ Pres s (find s x).2 := by
  obtain ⟨hval, hrank, hlen, hunch, hcomp, hInv'⟩ := find_spec s x hInv h0 hL
  have hg := grounded_of_inv s hInv
  have hg' := grounded_of_inv _ hInv'
  have H : ∀ k, k < s.parent.length →
      pv (find s x).2 k = pv s k ∨
      pv (find s x).2 k = ((rootOf s k : Nat) : Int) := by
    intro k hk
    by_cases hmem : pathMem s x.toNat k ∧ ¬ isRoot s k
    · right
      rw [hcomp k hk hmem.1 hmem.2]
      obtain ⟨m, hm, hall⟩ := hmem.1
      rw [pathMem_rootOf_eq s hInv.1 hg m x.toNat k (by omega) hm hall]
    · left
      refine hunch k hk ?_
      by_cases h1 : pathMem s x.toNat k
      · right
        by_contra h2
        exact hmem ⟨h1, h2⟩
      · left; exact h1
  have hred := redirect_roots s (find s x).2 hInv.1 hg hlen hInv'.1 hg' H
  exact ⟨hval, hInv', hlen, hrank, hred⟩

theorem find_pres (s : DSU) (hInv : Inv s) (x : Int) :
    Pres s (find s x).2 := by
  by_cases h : x < 0 ∨ (s.parent.length : Int) ≤ x
  · rw [find_oob s x h]
    exact pres_refl s hInv
  · exact (find_full s hInv x (by omega) (by omega)).2

theorem connected_spec (s : DSU) (hInv : Inv s) (x y : Int) :
    Pres s (connected s x y).2 ∧
    ((connected s x y).1 = true ↔
      (0 ≤ x ∧ x < (s.parent.length : Int) ∧ 0 ≤ y ∧
        y < (s.parent.length : Int) ∧ rootOf s x.toNat = rootOf s y.toNat)) := by
  have hp1 : Pres s (find s x).2 := find_pres s hInv x
  have hp2 : Pres (find s x).2 (find (find s x).2 y).2 :=
    find_pres (find s x).2 hp1.1 y
  have hpres : Pres s (find (find s x).2 y).2 :=
    pres_trans _ _ _ hp1 hp2
  refine ⟨hpres, ?_⟩
  by_cases hx : x < 0 ∨ (s.parent.length : Int) ≤ x
  · have he : find s x = (-1, s) := find_oob s x hx
    rw [connected]
    simp only [he]
    constructor
    · intro hh
      simp at hh
    · intro hh
      omega
  · have hval1 := (find_full s hInv x (by omega) (by omega)).1
    by_cases hy : y < 0 ∨ (s.parent.length : Int) ≤ y
    · have he2 : find (find s x).2 y = (-1, (find s x).2) := by
        apply find_oob
        rw [hp1.2.1]
        exact hy
      rw [connected]
      simp only [he2]
      constructor
      · intro hh
        simp at hh
      · intro hh
        omega
    · have hyL : y < ((find s x).2.parent.length : Int) := by
        rw [hp1.2.1]; omega
      have hval2 := (find_full (find s x).2 hp1.1 y (by omega) hyL).1
      have hylt : y.toNat < s.parent.length := by omega
      have hroots : rootOf (find s x).2 y.toNat = rootOf s y.toNat :=
        (hp1.2.2.2 y.toNat hylt).2
      rw [connected]
      simp only [hval1, hval2, hroots]
      constructor
      · intro hh
        simp at hh
        exact ⟨by omega, by omega, by omega, by omega, hh⟩
      · intro hh
        simp
        exact hh.2.2.2.2

end Daxe

namespace Daxe

theorem linkByRank_case_lt (s2 : DSU) (px py : Int)
    (h : s2.rank.getD px.toNat 0 < s2.rank.getD py.toNat 0) :
    linkByRank s2 px py = ⟨s2.parent.set px.toNat py, s2.rank⟩ := by
  simp only [linkByRank, if_pos h]
  rw [if_neg (by omega)]

theorem linkByRank_case_gt (s2 : DSU) (px py : Int)
    (h : s2.rank.getD py.toNat 0 < s2.rank.getD px.toNat 0) :
    linkByRank s2 px py = ⟨s2.parent.set py.toNat px, s2.rank⟩ := by
  simp only [linkByRank, if_neg (by omega : ¬ s2.rank.getD px.toNat 0 < s2.rank.getD py.toNat 0)]
  rw [if_neg (by omega)]

theorem linkByRank_case_eq (s2 : DSU) (px py : Int)
    (h : s2.rank.getD px.toNat 0 = s2.rank.getD py.toNat 0) :
    linkByRank s2 px py = ⟨s2.parent.set py.toNat px,
      s2.rank.set px.toNat (s2.rank.getD px.toNat 0 + 1)⟩ := by
  simp only [linkByRank, if_neg (by omega : ¬ s2.rank.getD px.toNat 0 < s2.rank.getD py.toNat 0)]
  rw [if_pos (by omega)]

theorem unite_eq_false (s : DSU) (x y : Int)
    (h : (find s x).1 < 0 ∨ (find (find s x).2 y).1 < 0 ∨
      (find s x).1 = (find (find s x).2 y).1) :
    unite s x y = (false, (find (find s x).2 y).2) := by
  simp only [unite]
  rw [if_pos h]

theorem unite_eq_true (s : DSU) (x y : Int)
    (h : ¬((find s x).1 < 0 ∨ (find (find s x).2 y).1 < 0 ∨
      (find s x).1 = (find (find s x).2 y).1)) :
    unite s x y = (true,
      linkByRank (find (find s x).2 y).2 (find s x).1
        (find (find s x).2 y).1) := by
  simp only [unite]
  rw [if_neg h]

theorem linked_inv (s2 : DSU) (a b : Nat) (hInv : Inv s2)
    (ha : a < s2.parent.length) (hb : b < s2.parent.length)
    (hra : isRoot s2 a) (hab : a ≠ b)
    (rk' : List Int)
    (hlenr : rk'.length = s2.rank.length)
    (hmono : ∀ j : Nat, s2.rank.getD j 0 ≤ rk'.getD j 0)
    (hblt : rk'.getD b 0 < rk'.getD a 0)
    (hother : ∀ j : Nat, j < s2.parent.length → j ≠ a →
      rk'.getD j 0 = s2.rank.getD j 0) :
    Inv (⟨s2.parent.set b ((a : Nat) : Int), rk'⟩ : DSU) := by
  have hpv : ∀ k : Nat, pv (⟨s2.parent.set b ((a : Nat) : Int), rk'⟩ : DSU) k =
      if k = b then ((a : Nat) : Int) else pv s2 k := by
    intro k
    show (s2.parent.set b ((a : Nat) : Int)).getD k 0 = _
    rw [getD_set_eq]
    by_cases hk : k = b
    · rw [if_pos ⟨hk.symm, hb⟩, if_pos hk]
    · rw [if_neg (fun hh => hk hh.1.symm), if_neg hk]
      rfl
  constructor
  · intro k hk2
    have hk : k < s2.parent.length := by
      rw [List.length_set] at hk2
      exact hk2
    rw [hpv k]
    rw [show (⟨s2.parent.set b ((a : Nat) : Int), rk'⟩ : DSU).parent.length =
      s2.parent.length from by simp [List.length_set]]
    by_cases hkb : k = b
    · rw [if_pos hkb]
      constructor
      · omega
      · omega
    · rw [if_neg hkb]
      exact hInv.1 k hk
  · constructor
    · show rk'.length = (s2.parent.set b ((a : Nat) : Int)).length
      rw [List.length_set, hlenr, hInv.2.1]
    · intro k hk2 hknr
      have hk : k < s2.parent.length := by
        rw [show (⟨s2.parent.set b ((a : Nat) : Int), rk'⟩ : DSU).parent.length =
          s2.parent.length from by simp [List.length_set]] at hk2
        exact hk2
      have hrnkd : ∀ j : Nat, rnk (⟨s2.parent.set b ((a : Nat) : Int), rk'⟩ : DSU) j =
          rk'.getD j 0 := fun j => rfl
      by_cases hkb : k = b
      · have hstpk : stp (⟨s2.parent.set b ((a : Nat) : Int), rk'⟩ : DSU) k = a := by
          show (pv (⟨s2.parent.set b ((a : Nat) : Int), rk'⟩ : DSU) k).toNat = a
          rw [hpv k, if_pos hkb]
          omega
        rw [hstpk, hrnkd, hrnkd, hkb]
        exact hblt
      · have hpveq : pv (⟨s2.parent.set b ((a : Nat) : Int), rk'⟩ : DSU) k = pv s2 k := by
          rw [hpv k, if_neg hkb]
        have hknr2 : ¬ isRoot s2 k := by
          rw [isRoot, ← hpveq]
          exact hknr
        have hka : k ≠ a := by
          intro hh
          rw [hh] at hknr2
          exact hknr2 hra
        have hstpk : stp (⟨s2.parent.set b ((a : Nat) : Int), rk'⟩ : DSU) k = stp s2 k := by
          show (pv _ k).toNat = (pv s2 k).toNat
          rw [hpveq]
        rw [hstpk, hrnkd, hrnkd, hother k hk hka]
        have h1 := hInv.2.2 k hk hknr2
        have h2 := hmono (stp s2 k)
        rw [rnk, rnk] at h1
        omega

theorem link_roots (s2 : DSU) (hv : ValidP s2) (hg : Grounded s2)
    (a b : Nat) (ha : a < s2.parent.length) (hb : b < s2.parent.length)
    (hra : isRoot s2 a) (hrb : isRoot s2 b) (hab : a ≠ b)
    (s4 : DSU) (hlen : s4.parent.length = s2.parent.length)
    (hv4 : ValidP s4) (hg4 : Grounded s4)
    (H : ∀ k, k < s2.parent.length →
      pv s4 k = if k = b then ((a : Nat) : Int) else pv s2 k) :
    ∀ k, k < s2.parent.length →
      ((isRoot s4 k ↔ (isRoot s2 k ∧ k ≠ b)) ∧
       rootOf s4 k = (if rootOf s2 k = b then a else rootOf s2 k)) := by
  have hiff : ∀ k, k < s2.parent.length →
      (isRoot s4 k ↔ (isRoot s2 k ∧ k ≠ b)) := by
    intro k hk
    by_cases hkb : k = b
    · subst hkb
      rw [isRoot, H k hk, if_pos rfl]
      constructor
      · intro hh
        have : a = k := by exact_mod_cast hh
        exact absurd this hab
      · intro hh
        exact absurd rfl hh.2
    · rw [isRoot, H k hk, if_neg hkb, ← isRoot]
      constructor
      · intro hh; exact ⟨hh, hkb⟩
      · intro hh; exact hh.1
  have hroot : ∀ m' k, k < s2.parent.length →
      isRoot s4 (iterStep s4 m' k) →
      rootOf s4 k = (if rootOf s2 k = b then a else rootOf s2 k) := by
    intro m'
    induction m' with
    | zero =>
      intro k hk hr4
      have hks := (hiff k hk).1 hr4
      rw [rootOf_eq_self s4 hg4 k (by rw [hlen]; exact hk) hr4,
          rootOf_eq_self s2 hg k hk hks.1, if_neg hks.2]
    | succ m' IH =>
      intro k hk hr4
      by_cases hk4 : isRoot s4 k
      · have hks := (hiff k hk).1 hk4
        rw [rootOf_eq_self s4 hg4 k (by rw [hlen]; exact hk) hk4,
            rootOf_eq_self s2 hg k hk hks.1, if_neg hks.2]
      · have hstep : rootOf s4 k = rootOf s4 (stp s4 k) :=
          (rootOf_stp s4 hv4 hg4 k (by rw [hlen]; exact hk) hk4).symm
        have hslt : stp s4 k < s2.parent.length := by
          have := stp_lt s4 hv4 k (by rw [hlen]; exact hk)
          rw [hlen] at this
          exact this
        have hr2 : isRoot s4 (iterStep s4 m' (stp s4 k)) := hr4
        have hIH := IH (stp s4 k) hslt hr2
        rw [hstep, hIH]
        by_cases hkb : k = b
        · subst hkb
          have hsa : stp s4 k = a := by
            rw [stp, H k hk, if_pos rfl]
            omega
          rw [hsa, rootOf_eq_self s2 hg a ha hra, if_neg hab,
              rootOf_eq_self s2 hg k hk hrb, if_pos rfl]
        · have hks : ¬ isRoot s2 k := by
            intro hh
            exact hk4 ((hiff k hk).2 ⟨hh, hkb⟩)
          have hsa : stp s4 k = stp s2 k := by
            rw [stp, stp, H k hk, if_neg hkb]
          rw [hsa, rootOf_stp s2 hv hg k hk hks]
  intro k hk
  refine ⟨hiff k hk, ?_⟩
  obtain ⟨m', _, hr'⟩ := hg4 k (by rw [hlen]; exact hk)
  exact hroot m' k hk hr'

end Daxe

namespace Daxe

theorem linked_full (s : DSU) (s2 : DSU) (hpres : Pres s s2)
    (a b : Nat) (ha : a < s.parent.length) (hb : b < s.parent.length)
    (hra : isRoot s a) (hrb : isRoot s b) (hab : a ≠ b)
    (rk' : List Int) (hlenr : rk'.length = s2.rank.length)
    (hmono : ∀ j : Nat, s2.rank.getD j 0 ≤ rk'.getD j 0)
    (hblt : rk'.getD b 0 < rk'.getD a 0)
    (hother : ∀ j : Nat, j < s.parent.length → j ≠ a →
      rk'.getD j 0 = s2.rank.getD j 0) :
    Inv (⟨s2.parent.set b ((a : Nat) : Int), rk'⟩ : DSU) ∧
    (⟨s2.parent.set b ((a : Nat) : Int), rk'⟩ : DSU).parent.length =
      s.parent.length ∧
    (∀ k, k < s.parent.length →
      ((isRoot (⟨s2.parent.set b ((a : Nat) : Int), rk'⟩ : DSU) k ↔
          (isRoot s k ∧ k ≠ b)) ∧
       rootOf (⟨s2.parent.set b ((a : Nat) : Int), rk'⟩ : DSU) k =
         (if rootOf s k = b then a else rootOf s k))) ∧
    pv (⟨s2.parent.set b ((a : Nat) : Int), rk'⟩ : DSU) b = ((a : Nat) : Int) := by
  have hInv2 : Inv s2 := hpres.1
  have hg2 := grounded_of_inv s2 hInv2
  have hlen2 : s2.parent.length = s.parent.length := hpres.2.1
  have ha2 : a < s2.parent.length := by rw [hlen2]; exact ha
  have hb2 : b < s2.parent.length := by rw [hlen2]; exact hb
  have hra2 : isRoot s2 a := ((hpres.2.2.2 a ha).1).2 hra
  have hrb2 : isRoot s2 b := ((hpres.2.2.2 b hb).1).2 hrb
  have hInv4 : Inv (⟨s2.parent.set b ((a : Nat) : Int), rk'⟩ : DSU) :=
    linked_inv s2 a b hInv2 ha2 hb2 hra2 hab rk' hlenr hmono hblt
      (fun j hj => hother j (by rw [← hlen2]; exact hj))
  have hg4 := grounded_of_inv _ hInv4
  have hlen4 : (⟨s2.parent.set b ((a : Nat) : Int), rk'⟩ : DSU).parent.length =
      s2.parent.length := by
    show (s2.parent.set b ((a : Nat) : Int)).length = s2.parent.length
    rw [List.length_set]
  have hpv4 : ∀ k, k < s2.parent.length →
      pv (⟨s2.parent.set b ((a : Nat) : Int), rk'⟩ : DSU) k =
        if k = b then ((a : Nat) : Int) else pv s2 k := by
    intro k _
    show (s2.parent.set b ((a : Nat) : Int)).getD k 0 = _
    rw [getD_set_eq]
    by_cases hk : k = b
    · rw [if_pos ⟨hk.symm, hb2⟩, if_pos hk]
    · rw [if_neg (fun hh => hk hh.1.symm), if_neg hk]
      rfl
  have hlr := link_roots s2 hInv2.1 hg2 a b ha2 hb2 hra2 hrb2 hab
    (⟨s2.parent.set b ((a : Nat) : Int), rk'⟩ : DSU) hlen4 hInv4.1 hg4 hpv4
  refine ⟨hInv4, by rw [hlen4, hlen2], ?_, ?_⟩
  · intro k hk
    have hk2 : k < s2.parent.length := by rw [hlen2]; exact hk
    have hl := hlr k hk2
    have hpk := hpres.2.2.2 k hk
    constructor
    · rw [hl.1]
      constructor
      · intro hh; exact ⟨hpk.1.1 hh.1, hh.2⟩
      · intro hh; exact ⟨hpk.1.2 hh.1, hh.2⟩
    · rw [hl.2, hpk.2]
  · rw [hpv4 b hb2, if_pos rfl]

theorem unite_true_spec (s : DSU) (hInv : Inv s) (x y : Int)
    (hx0 : 0 ≤ x) (hxL : x < (s.parent.length : Int))
    (hy0 : 0 ≤ y) (hyL : y < (s.parent.length : Int))
    (hne : rootOf s x.toNat ≠ rootOf s y.toNat) :
    (unite s x y).1 = true ∧
    Inv (unite s x y).2 ∧
    (unite s x y).2.parent.length = s.parent.length ∧
    (∀ k, k < s.parent.length →
      ((isRoot (unite s x y).2 k ↔ (isRoot s k ∧ k ≠ uniteLoser s x y)) ∧
       rootOf (unite s x y).2 k =
         (if rootOf s k = uniteLoser s x y then uniteWinner s x y
          else rootOf s k))) ∧
    pv (unite s x y).2 (uniteLoser s x y) =
      ((uniteWinner s x y : Nat) : Int) ∧
    (rnk s (rootOf s x.toNat) ≠ rnk s (rootOf s y.toNat) →
      (unite s x y).2.rank = s.rank) ∧
    (rnk s (rootOf s x.toNat) = rnk s (rootOf s y.toNat) →
      rnk (unite s x y).2 (rootOf s x.toNat) =
        rnk s (rootOf s x.toNat) + 1 ∧
      (∀ j, j ≠ rootOf s x.toNat → rnk (unite s x y).2 j = rnk s j)) ∧
    isRoot s (uniteLoser s x y) ∧ uniteLoser s x y < s.parent.length ∧
    isRoot s (uniteWinner s x y) ∧ uniteWinner s x y < s.parent.length ∧
    uniteWinner s x y ≠ uniteLoser s x y := by
  have hg := grounded_of_inv s hInv
  have hxlt : x.toNat < s.parent.length := by omega
  have hylt : y.toNat < s.parent.length := by omega
  have hrxR : isRoot s (rootOf s x.toNat) := (rootOf_spec s hg _ hxlt).1
  have hryR : isRoot s (rootOf s y.toNat) := (rootOf_spec s hg _ hylt).1
  have hrxL : rootOf s x.toNat < s.parent.length :=
    rootOf_lt s hInv.1 hg _ hxlt
  have hryL : rootOf s y.toNat < s.parent.length :=
    rootOf_lt s hInv.1 hg _ hylt
  obtain ⟨hval1, hp1⟩ := find_full s hInv x hx0 hxL
  have hInv1 : Inv (find s x).2 := hp1.1
  have hyL1 : y < ((find s x).2.parent.length : Int) := by
    rw [hp1.2.1]; omega
  obtain ⟨hval2, hp2⟩ := find_full (find s x).2 hInv1 y hy0 hyL1
  have hval2' : (find (find s x).2 y).1 = ((rootOf s y.toNat : Nat) : Int) := by
    rw [hval2, (hp1.2.2.2 y.toNat hylt).2]
  have hpres : Pres s (find (find s x).2 y).2 := pres_trans _ _ _ hp1 hp2
  have hguard : ¬((find s x).1 < 0 ∨ (find (find s x).2 y).1 < 0 ∨
      (find s x).1 = (find (find s x).2 y).1) := by
    rw [hval1, hval2']
    push_neg
    refine ⟨by omega, by omega, ?_⟩
    intro hh
    exact hne (by exact_mod_cast hh)
  rw [unite_eq_true s x y hguard, hval1, hval2']
  have hInv2 : Inv (find (find s x).2 y).2 := hpres.1
  have hrankeq : (find (find s x).2 y).2.rank = s.rank := hpres.2.2.1
  have hlen2 : (find (find s x).2 y).2.parent.length = s.parent.length :=
    hpres.2.1
  have hrnkg : ∀ j : Nat, (find (find s x).2 y).2.rank.getD j 0 =
      rnk s j := by
    intro j
    rw [hrankeq]
    rfl
  have htx : (((rootOf s x.toNat : Nat) : Int)).toNat = rootOf s x.toNat := by
    omega
  have hty : (((rootOf s y.toNat : Nat) : Int)).toNat = rootOf s y.toNat := by
    omega
  have hranklen : s.rank.length = s.parent.length := hInv.2.1
  rcases lt_trichotomy (rnk s (rootOf s x.toNat)) (rnk s (rootOf s y.toNat))
    with hc | hc | hc
  · -- the root of x has smaller rank: it is attached below the root of y
    have hW : uniteWinner s x y = rootOf s y.toNat := by
      rw [uniteWinner, if_pos hc]
    have hLo : uniteLoser s x y = rootOf s x.toNat := by
      rw [uniteLoser, if_pos hc]
    have hlink := linkByRank_case_lt (find (find s x).2 y).2
      ((rootOf s x.toNat : Nat) : Int) ((rootOf s y.toNat : Nat) : Int)
      (by rw [htx, hty, hrnkg, hrnkg]; exact hc)
    rw [hlink, htx]
    have hfull := linked_full s (find (find s x).2 y).2 hpres
      (rootOf s y.toNat) (rootOf s x.toNat) hryL hrxL hryR hrxR
      (Ne.symm hne) (find (find s x).2 y).2.rank rfl (fun j => le_refl _)
      (by rw [hrnkg, hrnkg]; exact hc)
      (fun j _ _ => rfl)
    refine ⟨rfl, hfull.1, hfull.2.1, ?_, ?_, ?_, ?_, ?_⟩
    · intro k hk
      have := hfull.2.2.1 k hk
      rw [hW, hLo]
      exact this
    · rw [hW, hLo]
      exact hfull.2.2.2
    · intro _
      show (find (find s x).2 y).2.rank = s.rank
      exact hrankeq
    · intro hh
      omega
    · rw [hW, hLo]
      exact ⟨hrxR, hrxL, hryR, hryL, Ne.symm hne⟩
  · -- equal ranks: the root of y is attached below the root of x,
    -- whose rank is incremented
    have hW : uniteWinner s x y = rootOf s x.toNat := by
      rw [uniteWinner, if_neg (by omega)]
    have hLo : uniteLoser s x y = rootOf s y.toNat := by
      rw [uniteLoser, if_neg (by omega)]
    have hlink := linkByRank_case_eq (find (find s x).2 y).2
      ((rootOf s x.toNat : Nat) : Int) ((rootOf s y.toNat : Nat) : Int)
      (by rw [htx, hty, hrnkg, hrnkg]; exact hc)
    rw [hlink, htx, hty]
    have hrklen2 : (find (find s x).2 y).2.rank.length = s.parent.length := by
      rw [hrankeq, hranklen]
    have hrkset : ∀ j : Nat,
        ((find (find s x).2 y).2.rank.set (rootOf s x.toNat)
          ((find (find s x).2 y).2.rank.getD (rootOf s x.toNat) 0 + 1)).getD j 0 =
        if j = rootOf s x.toNat then rnk s (rootOf s x.toNat) + 1
        else rnk s j := by
      intro j
      rw [getD_set_eq]
      by_cases hj : j = rootOf s x.toNat
      · rw [if_pos ⟨hj.symm, by rw [hrklen2]; exact hrxL⟩, if_pos hj, hrnkg]
      · rw [if_neg (fun hh => hj hh.1.symm), if_neg hj, hrnkg]
    have hfull := linked_full s (find (find s x).2 y).2 hpres
      (rootOf s x.toNat) (rootOf s y.toNat) hrxL hryL hrxR hryR hne
      ((find (find s x).2 y).2.rank.set (rootOf s x.toNat)
        ((find (find s x).2 y).2.rank.getD (rootOf s x.toNat) 0 + 1))
      (by rw [List.length_set])
      (by intro j
          rw [hrkset j, hrnkg]
          by_cases hj : j = rootOf s x.toNat
          · rw [if_pos hj, hj]; omega
          · rw [if_neg hj])
      (by rw [hrkset, hrkset, if_neg (fun hh => hne hh.symm), if_pos rfl]
          omega)
      (by intro j _ hj
          rw [hrkset j, if_neg hj, hrnkg])
    refine ⟨rfl, hfull.1, hfull.2.1, ?_, ?_, ?_, ?_, ?_⟩
    · intro k hk
      have := hfull.2.2.1 k hk
      rw [hW, hLo]
      exact this
    · rw [hW, hLo]
      exact hfull.2.2.2
    · intro hh
      omega
    · intro _
      constructor
      · show ((find (find s x).2 y).2.rank.set (rootOf s x.toNat)
          ((find (find s x).2 y).2.rank.getD (rootOf s x.toNat) 0 + 1)).getD
            (rootOf s x.toNat) 0 = _
        rw [hrkset, if_pos rfl]
      · intro j hj
        show ((find (find s x).2 y).2.rank.set (rootOf s x.toNat)
          ((find (find s x).2 y).2.rank.getD (rootOf s x.toNat) 0 + 1)).getD
            j 0 = _
        rw [hrkset, if_neg hj]
    · rw [hW, hLo]
      exact ⟨hryR, hryL, hrxR, hrxL, hne⟩
  · -- the root of y has smaller rank: it is attached below the root of x
    have hW : uniteWinner s x y = rootOf s x.toNat := by
      rw [uniteWinner, if_neg (by omega)]
    have hLo : uniteLoser s x y = rootOf s y.toNat := by
      rw [uniteLoser, if_neg (by omega)]
    have hlink := linkByRank_case_gt (find (find s x).2 y).2
      ((rootOf s x.toNat : Nat) : Int) ((rootOf s y.toNat : Nat) : Int)
      (by rw [htx, hty, hrnkg, hrnkg]; exact hc)
    rw [hlink, hty]
    have hfull := linked_full s (find (find s x).2 y).2 hpres
      (rootOf s x.toNat) (rootOf s y.toNat) hrxL hryL hrxR hryR hne
      (find (find s x).2 y).2.rank rfl (fun j => le_refl _)
      (by rw [hrnkg, hrnkg]; exact hc)
      (fun j _ _ => rfl)
    refine ⟨rfl, hfull.1, hfull.2.1, ?_, ?_, ?_, ?_, ?_⟩
    · intro k hk
      have := hfull.2.2.1 k hk
      rw [hW, hLo]
      exact this
    · rw [hW, hLo]
      exact hfull.2.2.2
    · intro _
      show (find (find s x).2 y).2.rank = s.rank
      exact hrankeq
    · intro hh
      omega
    · rw [hW, hLo]
      exact ⟨hryR, hryL, hrxR, hrxL, hne⟩

end Daxe

namespace Daxe

theorem unite_false_spec (s : DSU) (hInv : Inv s) (x y : Int)
    (h : x < 0 ∨ (s.parent.length : Int) ≤ x ∨ y < 0 ∨
      (s.parent.length : Int) ≤ y ∨ rootOf s x.toNat = rootOf s y.toNat) :
    (unite s x y).1 = false ∧ Pres s (unite s x y).2 := by
  by_cases hx : x < 0 ∨ (s.parent.length : Int) ≤ x
  · have h1 : find s x = (-1, s) := find_oob s x hx
    have hguard : (find s x).1 < 0 ∨ (find (find s x).2 y).1 < 0 ∨
        (find s x).1 = (find (find s x).2 y).1 := by
      rw [h1]
      left
      omega
    rw [unite_eq_false s x y hguard, h1]
    exact ⟨rfl, find_pres s hInv y⟩
  · obtain ⟨hval1, hp1⟩ := find_full s hInv x (by omega) (by omega)
    by_cases hy : y < 0 ∨ (s.parent.length : Int) ≤ y
    · have h2 : find (find s x).2 y = (-1, (find s x).2) := by
        apply find_oob
        rw [hp1.2.1]
        exact hy
      have hguard : (find s x).1 < 0 ∨ (find (find s x).2 y).1 < 0 ∨
          (find s x).1 = (find (find s x).2 y).1 := by
        rw [h2]
        right; left
        omega
      rw [unite_eq_false s x y hguard, h2]
      exact ⟨rfl, hp1⟩
    · have hsame : rootOf s x.toNat = rootOf s y.toNat := by
        rcases h with h | h | h | h | h
        · omega
        · omega
        · omega
        · omega
        · exact h
      have hylt : y.toNat < s.parent.length := by omega
      have hyL1 : y < ((find s x).2.parent.length : Int) := by
        rw [hp1.2.1]; omega
      obtain ⟨hval2, hp2⟩ := find_full (find s x).2 hp1.1 y (by omega) hyL1
      have hval2' : (find (find s x).2 y).1 =
          ((rootOf s y.toNat : Nat) : Int) := by
        rw [hval2, (hp1.2.2.2 y.toNat hylt).2]
      have hguard : (find s x).1 < 0 ∨ (find (find s x).2 y).1 < 0 ∨
          (find s x).1 = (find (find s x).2 y).1 := by
        right; right
        rw [hval1, hval2', hsame]
      rw [unite_eq_false s x y hguard]
      exact ⟨rfl, pres_trans _ _ _ hp1 hp2⟩

theorem countP_remove (L : Nat) (p q : Nat → Bool) (b : Nat) (hb : b < L)
    (hpb : p b = true) (hqb : q b = false)
    (hagree : ∀ k, k < L → k ≠ b → p k = q k) :
    (List.range L).countP q + 1 = (List.range L).countP p := by
  have hgen : ∀ l : List Nat, l.Nodup → b ∈ l → (∀ k ∈ l, k < L) →
      l.countP q + 1 = l.countP p := by
    intro l
    induction l with
    | nil => intro _ hmem _; simp at hmem
    | cons a t IH =>
      intro hnd hmem hbound
      have hnd2 := List.nodup_cons.1 hnd
      rw [List.countP_cons, List.countP_cons]
      rcases List.mem_cons.1 hmem with he | ht
      · subst he
        have hcong : t.countP p = t.countP q := by
          apply List.countP_congr
          intro k hk
          have hkb : k ≠ b := fun hh => hnd2.1 (hh ▸ hk)
          rw [hagree k (hbound k (List.mem_cons_of_mem b hk)) hkb]
        rw [hpb, hqb]
        simp
        omega
      · have hab : a ≠ b := by
          intro hh
          exact hnd2.1 (hh ▸ ht)
        have := IH hnd2.2 ht (fun k hk => hbound k (List.mem_cons_of_mem a hk))
        rw [hagree a (hbound a (List.mem_cons_self a t)) hab]
        omega
  exact hgen (List.range L) (List.nodup_range L) (List.mem_range.2 hb)
    (fun k hk => List.mem_range.1 hk)

theorem countRoots_pres (s s' : DSU) (h : Pres s s') :
    countRoots s' = countRoots s := by
  rw [countRoots, countRoots, h.2.1]
  apply List.countP_congr
  intro k hk
  have hk2 := List.mem_range.1 hk
  simp only [decide_eq_true_eq]
  exact (h.2.2.2 k hk2).1

theorem componentsAux_spec : ∀ (l : List Nat) (acc : Int) (s s' : DSU),
    Pres s s' → (∀ i ∈ l, i < s.parent.length) →
    (componentsAux l acc s').1 =
      acc + ((l.countP (fun k => decide (isRoot s k)) : Nat) : Int) ∧
    Pres s (componentsAux l acc s').2 := by
  intro l
  induction l with
  | nil =>
    intro acc s s' hp _
    constructor
    · show acc = acc + ((0 : Nat) : Int)
      omega
    · exact hp
  | cons i t IH =>
    intro acc s s' hp hbound
    have hiL : i < s.parent.length := hbound i (List.mem_cons_self i t)
    have hiL' : (i : Int) < (s'.parent.length : Int) := by
      rw [hp.2.1]
      omega
    obtain ⟨hval, hpf⟩ := find_full s' hp.1 (i : Int) (by omega) hiL'
    have hti : ((i : Int)).toNat = i := by omega
    rw [hti] at hval
    have hroot_iff : (find s' (i : Int)).1 = (i : Int) ↔ isRoot s i := by
      rw [hval]
      constructor
      · intro hh
        have he : rootOf s' i = i := by exact_mod_cast hh
        have := isRoot_of_rootOf_eq s' (grounded_of_inv s' hp.1) i
          (by rw [hp.2.1]; exact hiL) he
        exact (hp.2.2.2 i hiL).1.1 this
      · intro hh
        have hs' : isRoot s' i := (hp.2.2.2 i hiL).1.2 hh
        rw [rootOf_eq_self s' (grounded_of_inv s' hp.1) i
          (by rw [hp.2.1]; exact hiL) hs']
    have hpres2 : Pres s (find s' (i : Int)).2 :=
      pres_trans _ _ _ hp hpf
    have hIH := IH (acc + if (find s' (i : Int)).1 = (i : Int) then 1 else 0)
      s (find s' (i : Int)).2 hpres2
      (fun k hk => hbound k (List.mem_cons_of_mem i hk))
    show (componentsAux t _ _).1 = _ ∧ Pres s (componentsAux t _ _).2
    refine ⟨?_, hIH.2⟩
    rw [hIH.1, List.countP_cons]
    by_cases hr : isRoot s i
    · rw [if_pos (hroot_iff.2 hr)]
      have hd : decide (isRoot s i) = true := decide_eq_true hr
      simp [hd]
      ring
    · rw [if_neg (fun hh => hr (hroot_iff.1 hh))]
      have hd : decide (isRoot s i) = false := decide_eq_false hr
      simp [hd]

theorem components_spec (s : DSU) (hInv : Inv s) :
    (components s).1 = ((countRoots s : Nat) : Int) ∧
    Pres s (components s).2 := by
  have h := componentsAux_spec (List.range s.parent.length) 0 s s
    (pres_refl s hInv) (fun i hi => List.mem_range.1 hi)
  rw [components]
  refine ⟨?_, h.2⟩
  rw [h.1, countRoots]
  omega

end Daxe

namespace Daxe

theorem mkDSU_len (n : Nat) : (mkDSU n).parent.length = n := by
  simp [mkDSU]

theorem mkDSU_pv (n k : Nat) (hk : k < n) : pv (mkDSU n) k = (k : Int) := by
  have hlen : k < (mkDSU n).parent.length := by rw [mkDSU_len]; exact hk
  rw [pv, List.getD_eq_getElem _ 0 hlen]
  simp [mkDSU]

theorem mkDSU_inv (n : Nat) : Inv (mkDSU n) := by
  constructor
  · intro k hk
    have hk2 : k < n := by rw [← mkDSU_len n]; exact hk
    rw [mkDSU_pv n k hk2, mkDSU_len n]
    constructor
    · omega
    · omega
  · constructor
    · show (List.replicate n (0 : Int)).length = _
      rw [List.length_replicate, mkDSU_len n]
    · intro k hk hnr
      exfalso
      have hk2 : k < n := by rw [← mkDSU_len n]; exact hk
      exact hnr (mkDSU_pv n k hk2)

theorem unite_inv (s : DSU) (hInv : Inv s) (x y : Int) :
    Inv (unite s x y).2 ∧
    (unite s x y).2.parent.length = s.parent.length := by
  by_cases hx : x < 0 ∨ (s.parent.length : Int) ≤ x
  · have h := unite_false_spec s hInv x y (by tauto)
    exact ⟨h.2.1, h.2.2.1⟩
  · by_cases hy : y < 0 ∨ (s.parent.length : Int) ≤ y
    · have h := unite_false_spec s hInv x y (by tauto)
      exact ⟨h.2.1, h.2.2.1⟩
    · by_cases hr : rootOf s x.toNat = rootOf s y.toNat
      · have h := unite_false_spec s hInv x y (by tauto)
        exact ⟨h.2.1, h.2.2.1⟩
      · have h := unite_true_spec s hInv x y (by omega) (by omega)
          (by omega) (by omega) hr
        exact ⟨h.2.1, h.2.2.1⟩

/-- Claim C2, counterexample to the no-op clause: on the concrete state
reached from DSU(4) by unite(0,1); unite(2,3); unite(1,3), the call
unite(3, 3) returns false because both arguments already share a set,
yet the state is not unchanged: path compression rewrites the parent of
node 3 from 2 to the root 0. -/
theorem claim_C2_dsu_counterexample :
    (connected exDSU 3 3).1 = true ∧
    (unite exDSU 3 3).1 = false ∧
    (unite exDSU 3 3).2 ≠ exDSU := by decide

/-- Claim C2 as amended: unite(x, y) returns false when an index is
invalid or both arguments already share a set, and then it preserves the
partition (the representative of every node is unchanged), although path
compression may rewrite parent entries; otherwise it returns true and
attaches the lower-rank root below the higher-rank root, ties attaching
the root of y below the root of x and incrementing the rank of the root
of x, and afterwards connected(x, y) is true. -/
theorem claim_C2_dsu_unite (s : DSU) (x y : Int) (hInv : Inv s) :
    ((x < 0 ∨ (s.parent.length : Int) ≤ x ∨ y < 0 ∨
        (s.parent.length : Int) ≤ y) →
      ((unite s x y).1 = false ∧
       ∀ k, k < s.parent.length → rootOf (unite s x y).2 k = rootOf s k)) ∧
    (0 ≤ x → x < (s.parent.length : Int) → 0 ≤ y →
      y < (s.parent.length : Int) → rootOf s x.toNat = rootOf s y.toNat →
      ((unite s x y).1 = false ∧
       ∀ k, k < s.parent.length → rootOf (unite s x y).2 k = rootOf s k)) ∧
    (0 ≤ x → x < (s.parent.length : Int) → 0 ≤ y →
      y < (s.parent.length : Int) → rootOf s x.toNat ≠ rootOf s y.toNat →
      ((unite s x y).1 = true ∧
       pv (unite s x y).2 (uniteLoser s x y) =
         ((uniteWinner s x y : Nat) : Int) ∧
       rnk s (uniteLoser s x y) ≤ rnk s (uniteWinner s x y) ∧
       (rnk s (rootOf s x.toNat) < rnk s (rootOf s y.toNat) →
         uniteLoser s x y = rootOf s x.toNat ∧
         uniteWinner s x y = rootOf s y.toNat) ∧
       (rnk s (rootOf s y.toNat) < rnk s (rootOf s x.toNat) →
         uniteLoser s x y = rootOf s y.toNat ∧
         uniteWinner s x y = rootOf s x.toNat) ∧
       (rnk s (rootOf s x.toNat) = rnk s (rootOf s y.toNat) →
         uniteLoser s x y = rootOf s y.toNat ∧
         uniteWinner s x y = rootOf s x.toNat ∧
         rnk (unite s x y).2 (rootOf s x.toNat) =
           rnk s (rootOf s x.toNat) + 1) ∧
       (connected (unite s x y).2 x y).1 = true)) := by
  refine ⟨?_, ?_, ?_⟩
  · intro h
    have hf := unite_false_spec s hInv x y (by tauto)
    exact ⟨hf.1, fun k hk => (hf.2.2.2.2 k hk).2⟩
  · intro _ _ _ _ hr
    have hf := unite_false_spec s hInv x y (by tauto)
    exact ⟨hf.1, fun k hk => (hf.2.2.2.2 k hk).2⟩
  · intro hx0 hxL hy0 hyL hne
    have ht := unite_true_spec s hInv x y hx0 hxL hy0 hyL hne
    obtain ⟨hb, hInv4, hlen4, hmap, hpl, hrkne, hrkeq, hLroot, hLlt, hWroot,
      hWlt, hWL⟩ := ht
    refine ⟨hb, hpl, ?_, ?_, ?_, ?_, ?_⟩
    · rw [uniteLoser, uniteWinner]
      by_cases hc : rnk s (rootOf s x.toNat) < rnk s (rootOf s y.toNat)
      · rw [if_pos hc, if_pos hc]; omega
      · rw [if_neg hc, if_neg hc]; omega
    · intro hc
      rw [uniteLoser, uniteWinner, if_pos hc, if_pos hc]
      exact ⟨rfl, rfl⟩
    · intro hc
      rw [uniteLoser, uniteWinner, if_neg (by omega), if_neg (by omega)]
      exact ⟨rfl, rfl⟩
    · intro hc
      rw [uniteLoser, uniteWinner, if_neg (by omega), if_neg (by omega)]
      exact ⟨rfl, rfl, (hrkeq hc).1⟩
    · have hxlt : x.toNat < s.parent.length := by omega
      have hylt : y.toNat < s.parent.length := by omega
      have hrx : rootOf (unite s x y).2 x.toNat = uniteWinner s x y := by
        rw [(hmap x.toNat hxlt).2]
        by_cases hcc : rootOf s x.toNat = uniteLoser s x y
        · rw [if_pos hcc]
        · rw [if_neg hcc]
          rw [uniteLoser] at hcc
          rw [uniteWinner]
          by_cases hc : rnk s (rootOf s x.toNat) < rnk s (rootOf s y.toNat)
          · rw [if_pos hc] at hcc
            exact absurd rfl hcc
          · rw [if_neg hc]
      have hry : rootOf (unite s x y).2 y.toNat = uniteWinner s x y := by
        rw [(hmap y.toNat hylt).2]
        by_cases hcc : rootOf s y.toNat = uniteLoser s x y
        · rw [if_pos hcc]
        · rw [if_neg hcc]
          rw [uniteLoser] at hcc
          rw [uniteWinner]
          by_cases hc : rnk s (rootOf s x.toNat) < rnk s (rootOf s y.toNat)
          · rw [if_pos hc]
          · rw [if_neg hc] at hcc
            exact absurd rfl hcc
      have hcs := (connected_spec (unite s x y).2 hInv4 x y).2
      apply hcs.2
      rw [hlen4]
      exact ⟨hx0, hxL, hy0, hyL, by rw [hrx, hry]⟩

end Daxe

namespace Daxe

/-- Claim C2 witness: on the two-component state DSU(4) after unite(0,1)
and unite(2,3), the call unite(1, 3) succeeds and connects 1 and 3. -/
theorem claim_C2_dsu_unite_witness :
    (unite exDSU2 1 3).1 = true ∧
    (connected (unite exDSU2 1 3).2 1 3).1 = true := by
  have h := (claim_C2_dsu_unite exDSU2 1 3 (by decide)).2.2
    (by decide) (by decide) (by decide) (by decide) (by decide)
  exact ⟨h.1, h.2.2.2.2.2.2⟩

/-- Claim C5: find returns -1 for an index outside the valid range and
otherwise returns the root of the tree of x after rewriting the parent
of every visited non-root node on the walked path to that root, leaving
every other parent entry unchanged; connected is true exactly when both
indices are valid and the two lookups agree; in particular find(-1)
returns -1, unite(-1, 0) returns false and connected(-1, 0) returns
false. -/
theorem claim_C5_dsu_find (s : DSU) (x y : Int) (hInv : Inv s) :
    ((x < 0 ∨ (s.parent.length : Int) ≤ x) → find s x = (-1, s)) ∧
    (0 ≤ x → x < (s.parent.length : Int) →
      ((find s x).1 = ((rootOf s x.toNat : Nat) : Int) ∧
       isRoot s (rootOf s x.toNat) ∧
       pathMem s x.toNat (rootOf s x.toNat) ∧
       (∀ k, k < s.parent.length → pathMem s x.toNat k → ¬ isRoot s k →
         pv (find s x).2 k = ((rootOf s x.toNat : Nat) : Int)) ∧
       (∀ k, k < s.parent.length → (¬ pathMem s x.toNat k ∨ isRoot s k) →
         pv (find s x).2 k = pv s k))) ∧
    ((connected s x y).1 = true ↔
      (0 ≤ x ∧ x < (s.parent.length : Int) ∧ 0 ≤ y ∧
        y < (s.parent.length : Int) ∧
        rootOf s x.toNat = rootOf s y.toNat)) ∧
    (find s (-1)).1 = -1 ∧
    (unite s (-1) 0).1 = false ∧
    (connected s (-1) 0).1 = false := by
  refine ⟨?_, ?_, (connected_spec s hInv x y).2, ?_, ?_, ?_⟩
  · exact fun h => find_oob s x h
  · intro h0 hL
    obtain ⟨hval, hrank, hlen, hunch, hcomp, hInv'⟩ := find_spec s x hInv h0 hL
    have hg := grounded_of_inv s hInv
    exact ⟨hval, (rootOf_spec s hg _ (by omega)).1,
      pathMem_rootOf s hInv.1 hg x.toNat (by omega), hcomp, hunch⟩
  · rw [find_oob s (-1) (by left; omega)]
  · exact (unite_false_spec s hInv (-1) 0 (by left; omega)).1
  · by_contra hh
    rw [Bool.not_eq_false] at hh
    have := (connected_spec s hInv (-1) 0).2.1 hh
    omega

/-- Claim C5 witness: concrete lookups on the four-node example state
whose parent array is [0, 0, 0, 2]. -/
theorem claim_C5_dsu_find_witness :
    (find exDSU 3).1 = 0 ∧
    pv (find exDSU 3).2 3 = 0 ∧
    (connected exDSU 0 3).1 = true ∧
    (find exDSU (-1)).1 = -1 := by
  have h := claim_C5_dsu_find exDSU 3 0 (by decide)
  have h2 := claim_C5_dsu_find exDSU 0 3 (by decide)
  have hv := (h.2.1 (by decide) (by decide)).1
  have hc := (h.2.1 (by decide) (by decide)).2.2.2.1 3 (by decide)
    (pathMem_self exDSU 3) (by decide)
  refine ⟨hv.trans (by decide), hc.trans (by decide), ?_, h.2.2.2.1⟩
  exact h2.2.2.1.mpr ⟨by decide, by decide, by decide, by decide, by decide⟩

/-- Claim C8: the constructor establishes and every operation preserves
the invariant: parent entries are valid indices and the parent array is
a forest in which every chain reaches a node that is its own parent;
the query operations find, connected and components leave the
representative of every node unchanged, and two successive components
calls return the same count. -/
theorem claim_C8_dsu_invariant (n : Nat) (s : DSU) (x y : Int)
    (hInv : Inv s) :
    Inv (mkDSU n) ∧
    (Inv (find s x).2 ∧ Grounded (find s x).2) ∧
    (Inv (unite s x y).2 ∧ Grounded (unite s x y).2) ∧
    (Inv (connected s x y).2 ∧ Grounded (connected s x y).2) ∧
    (Inv (components s).2 ∧ Grounded (components s).2) ∧
    (∀ k, k < s.parent.length → rootOf (find s x).2 k = rootOf s k) ∧
    (∀ k, k < s.parent.length → rootOf (connected s x y).2 k = rootOf s k) ∧
    (∀ k, k < s.parent.length → rootOf (components s).2 k = rootOf s k) ∧
    (components s).1 = (components (components s).2).1 := by
  have hfp := find_pres s hInv x
  have hcp := (connected_spec s hInv x y).1
  have hmp := (components_spec s hInv).2
  have hup := unite_inv s hInv x y
  refine ⟨mkDSU_inv n,
    ⟨hfp.1, grounded_of_inv _ hfp.1⟩,
    ⟨hup.1, grounded_of_inv _ hup.1⟩,
    ⟨hcp.1, grounded_of_inv _ hcp.1⟩,
    ⟨hmp.1, grounded_of_inv _ hmp.1⟩,
    fun k hk => (hfp.2.2.2 k hk).2,
    fun k hk => (hcp.2.2.2 k hk).2,
    fun k hk => (hmp.2.2.2 k hk).2, ?_⟩
  have h1 := components_spec s hInv
  have h2 := components_spec (components s).2 hmp.1
  rw [h1.1, h2.1, countRoots_pres s (components s).2 hmp]

/-- Claim C8 witness: the constructor invariant for DSU(4) and concrete
preservation facts on the example state. -/
theorem claim_C8_dsu_invariant_witness :
    Inv (mkDSU 4) ∧
    Inv (find exDSU 3).2 ∧
    rootOf (find exDSU 3).2 2 = rootOf exDSU 2 ∧
    (components exDSU).1 = (components (components exDSU).2).1 := by
  have h := claim_C8_dsu_invariant 4 exDSU 3 0 (by decide)
  exact ⟨h.1, h.2.1.1, h.2.2.2.2.2.1 2 (by decide), h.2.2.2.2.2.2.2.2⟩

/-- Claim C9: a unite call that returns true lowers the components count
by exactly one, and a unite call that returns false leaves it
unchanged. -/
theorem claim_C9_dsu_components (s : DSU) (x y : Int) (hInv : Inv s) :
    ((unite s x y).1 = true →
      (components (unite s x y).2).1 = (components s).1 - 1) ∧
    ((unite s x y).1 = false →
      (components (unite s x y).2).1 = (components s).1) := by
  have hsv := components_spec s hInv
  by_cases hfcase : x < 0 ∨ (s.parent.length : Int) ≤ x ∨ y < 0 ∨
      (s.parent.length : Int) ≤ y ∨ rootOf s x.toNat = rootOf s y.toNat
  · have hf := unite_false_spec s hInv x y hfcase
    constructor
    · intro ht
      rw [hf.1] at ht
      exact absurd ht (by simp)
    · intro _
      have h2 := components_spec (unite s x y).2 hf.2.1
      rw [h2.1, hsv.1, countRoots_pres s (unite s x y).2 hf.2]
  · push_neg at hfcase
    obtain ⟨hx0, hxL, hy0, hyL, hne⟩ := hfcase
    have ht := unite_true_spec s hInv x y (by omega) (by omega) (by omega)
      (by omega) hne
    obtain ⟨hb, hInv4, hlen4, hmap, _, _, _, hLroot, hLlt, _, _, hWL⟩ := ht
    constructor
    · intro _
      have h2 := components_spec (unite s x y).2 hInv4
      have hcount : countRoots (unite s x y).2 + 1 = countRoots s := by
        rw [countRoots, countRoots, hlen4]
        apply countP_remove s.parent.length _ _ (uniteLoser s x y) hLlt
        · exact decide_eq_true hLroot
        · apply decide_eq_false
          intro hh
          exact ((hmap (uniteLoser s x y) hLlt).1.1 hh).2 rfl
        · intro k hk hkb
          apply decide_eq_decide.2
          constructor
          · intro hh
            exact ((hmap k hk).1.2 ⟨hh, hkb⟩)
          · intro hh
            exact ((hmap k hk).1.1 hh).1
      rw [h2.1, hsv.1]
      omega
    · intro hfalse
      rw [hb] at hfalse
      exact absurd hfalse (by simp)

/-- Claim C9 witness: on the two-component state DSU(4) after unite(0,1)
and unite(2,3), the successful unite(1,3) lowers the count by one. -/
theorem claim_C9_dsu_components_witness :
    (components (unite exDSU2 1 3).2).1 = (components exDSU2).1 - 1 := by
  exact (claim_C9_dsu_components exDSU2 1 3 (by decide)).1 (by decide)

end Daxe
